import Mathlib

/-!
A shallow embedding of the gopi-frame/collection queue family:
the array-backed blocking queue, the linked-list-backed blocking queue,
the heap-ordered priority queue and its blocking wrapper, together with
the JSON encode/decode layer they share.

Go integers (`int64`, `int`) are modeled as `Int`; sizes reached by the
operations stay far below 2^63, so overflow never matters.  Go's zero
value of the element type is modeled as `default` of an `Inhabited`
instance.  Blocking operations are given their quiescent single-threaded
semantics: an operation that would park on a condition variable with no
other thread to wake it is modeled as `none`.
-/

set_option linter.unusedVariables false

namespace Collection

/-- Go JSON document values as parsed by encoding/json.  A serialized
payload that parses is modeled by its parse tree; decode failures are
shape mismatches against the target Go type. -/
inductive Json where
  | null : Json
  | bool (b : Bool) : Json
  | num (n : Int) : Json
  | str (s : String) : Json
  | arr (elems : List Json) : Json
deriving Inhabited

/-- A Go `error` result: `none` is the nil error. -/
abbrev GoError := Option String

/-- Elementwise decode of a JSON array into Go slice elements; the
first element of the wrong shape fails the whole decode. -/
def decodeElems {E : Type} (dec : Json → Option E) : List Json → Option (List E)
  | [] => some []
  | j :: rest =>
    match dec j, decodeElems dec rest with
    | some v, some vs => some (v :: vs)
    | _, _ => none

/-- Model of `json.Unmarshal(data, &values)` for a slice target `[]E`,
given an element decoder.  Go decodes a JSON array elementwise, leaves
the slice empty on JSON null, and reports an error on any other shape
or on an element of the wrong shape. -/
def decodeJsonList {E : Type} (dec : Json → Option E) : Json → Except String (List E)
  | Json.null => Except.ok []
  | Json.arr elems =>
    match decodeElems dec elems with
    | some values => Except.ok values
    | none => Except.error "json: cannot unmarshal array element"
  | _ => Except.error "json: cannot unmarshal value into slice"

/-- Model of `json.Marshal` applied to a slice `[]E`, given an element
encoder. -/
def encodeJsonList {E : Type} (enc : E → Json) (values : List E) : Json :=
  Json.arr (values.map enc)

/-! ## BlockingQueue (array-backed, src/unnamed/part_004)

The mutex and the two condition variables guard the three data fields;
the sequential model keeps just the data. -/

/-- State of `BlockingQueue[E]`: backing slice, stored size, capacity. -/
structure BlockingQueue (E : Type) where
  items : List E
  size : Int
  cap : Int
deriving DecidableEq

/-- `NewBlockingQueue[E](cap)`. -/
def NewBlockingQueue (E : Type) (cap : Int) : BlockingQueue E :=
  { items := [], size := 0, cap := cap }

namespace BlockingQueue

variable {E : Type}

/-- `Count()` returns the stored size field. -/
def Count (q : BlockingQueue E) : Int := q.size

/-- `IsEmpty()`. -/
def IsEmpty (q : BlockingQueue E) : Bool := q.Count == 0

/-- `IsNotEmpty()`. -/
def IsNotEmpty (q : BlockingQueue E) : Bool := !q.IsEmpty

/-- `Clear()` drops the backing slice and zeroes the size. -/
def Clear (q : BlockingQueue E) : BlockingQueue E :=
  { q with items := [], size := 0 }

/-- `Peek()`: zero value and false on empty, else the head, not removed. -/
def Peek [Inhabited E] (q : BlockingQueue E) : E × Bool :=
  if q.size == 0 then (default, false) else (q.items.headI, true)

/-- `TryEnqueue(value)`: refuses when `cap == size`, else appends at the
tail and increments the size. -/
def TryEnqueue (value : E) (q : BlockingQueue E) : Bool × BlockingQueue E :=
  if q.cap == q.size then (false, q)
  else (true, { q with items := q.items ++ [value], size := q.size + 1 })

/-- `TryDequeue()`: zero value and false when `size == 0`, else removes
the head (`q.items = q.items[1:]`) and decrements the size. -/
def TryDequeue [Inhabited E] (q : BlockingQueue E) : (E × Bool) × BlockingQueue E :=
  if q.size == 0 then ((default, false), q)
  else ((q.items.headI, true), { q with items := q.items.tail, size := q.size - 1 })

/-- `Enqueue(value)`: waits on the put condition while `cap == size`;
with no other thread the wait never ends, modeled as `none`. -/
def Enqueue (value : E) (q : BlockingQueue E) : Option (BlockingQueue E) :=
  if q.cap == q.size then none
  else some { q with items := q.items ++ [value], size := q.size + 1 }

/-- `Dequeue()`: waits on the take condition while `size == 0`; with no
other thread the wait never ends, modeled as `none`. -/
def Dequeue [Inhabited E] (q : BlockingQueue E) : Option (E × BlockingQueue E) :=
  if q.size == 0 then none
  else some (q.items.headI, { q with items := q.items.tail, size := q.size - 1 })

/-- `Remove(value)` keeps exactly the items not `reflect.DeepEqual` to
`value` (deep equality on value types is structural equality) and sets
the size to the new slice length. -/
def Remove [DecidableEq E] (value : E) (q : BlockingQueue E) : BlockingQueue E :=
  let items := q.items.filter (fun item => !(item == value))
  { q with items := items, size := (items.length : Int) }

/-- `RemoveWhere(callback)` keeps exactly the items the callback rejects
and sets the size to the new slice length. -/
def RemoveWhere (callback : E → Bool) (q : BlockingQueue E) : BlockingQueue E :=
  let items := q.items.filter (fun item => !callback item)
  { q with items := items, size := (items.length : Int) }

/-- `ToArray()` exposes the backing slice. -/
def ToArray (q : BlockingQueue E) : List E := q.items

/-- `ToJSON()` marshals `ToArray()`. -/
def ToJSON (enc : E → Json) (q : BlockingQueue E) : Json :=
  encodeJsonList enc q.ToArray

/-- The enqueue loop of `UnmarshalJSON`: each decoded value waits on the
put condition while `size == cap` before being appended; with no other
thread that wait never ends, modeled as `none`. -/
def unmarshalLoop : List E → BlockingQueue E → Option (BlockingQueue E)
  | [], q => some q
  | value :: rest, q =>
    if q.size == q.cap then none
    else unmarshalLoop rest { q with items := q.items ++ [value], size := q.size + 1 }

/-- `UnmarshalJSON(data)`: decodes a fresh slice, returns the decode
error with the queue untouched on failure, otherwise appends every
decoded value after the existing contents. -/
def UnmarshalJSON (dec : Json → Option E) (data : Json) (q : BlockingQueue E) :
    Option (GoError × BlockingQueue E) :=
  match decodeJsonList dec data with
  | Except.error e => some (some e, q)
  | Except.ok values => (unmarshalLoop values q).map (fun q2 => ((none : GoError), q2))

end BlockingQueue

/-! ## LinkedList (src/list/linked_list.go), the storage of the linked
blocking queue -/

/-- State of `LinkedList[E]`: the doubly linked `container/list` holds
its elements in order. -/
structure LinkedList (E : Type) where
  list : List E
deriving DecidableEq

/-- `NewLinkedList[E](values...)`. -/
def NewLinkedList (E : Type) (values : List E) : LinkedList E :=
  { list := values }

namespace LinkedList

variable {E : Type}

/-- `Count()` is the length of the underlying list. -/
def Count (l : LinkedList E) : Int := (l.list.length : Int)

/-- `IsEmpty()`. -/
def IsEmpty (l : LinkedList E) : Bool := l.Count == 0

/-- `IsNotEmpty()`. -/
def IsNotEmpty (l : LinkedList E) : Bool := !l.IsEmpty

/-- `Push(values...)` appends each value at the back. -/
def Push (values : List E) (l : LinkedList E) : LinkedList E :=
  { list := l.list ++ values }

/-- `Shift()`: zero value and false on empty, else removes and returns
the front element. -/
def Shift [Inhabited E] (l : LinkedList E) : (E × Bool) × LinkedList E :=
  if l.list.length == 0 then ((default, false), l)
  else ((l.list.headI, true), { list := l.list.tail })

/-- `First()`: zero value and false on empty, else the front element. -/
def First [Inhabited E] (l : LinkedList E) : E × Bool :=
  if l.list.length == 0 then (default, false) else (l.list.headI, true)

/-- `Clear()`. -/
def Clear (l : LinkedList E) : LinkedList E := { list := [] }

/-- `RemoveWhere(callback)` removes every node the callback accepts. -/
def RemoveWhere (callback : E → Bool) (l : LinkedList E) : LinkedList E :=
  { list := l.list.filter (fun item => !callback item) }

/-- `Remove(value)` removes by `reflect.DeepEqual` through
`RemoveWhere`. -/
def Remove [DecidableEq E] (value : E) (l : LinkedList E) : LinkedList E :=
  l.RemoveWhere (fun item => item == value)

/-- `ToArray()`. -/
def ToArray (l : LinkedList E) : List E := l.list

/-- `UnmarshalJSON(data)`: decodes a fresh slice, returns the decode
error with the list untouched on failure, otherwise pushes every decoded
value at the back of the existing contents. -/
def UnmarshalJSON (dec : Json → Option E) (data : Json) (l : LinkedList E) :
    GoError × LinkedList E :=
  match decodeJsonList dec data with
  | Except.error e => (some e, l)
  | Except.ok items => ((none : GoError), { list := l.list ++ items })

end LinkedList

/-! ## LinkedBlockingQueue (src/unnamed/part_005) -/

/-- State of `LinkedBlockingQueue[E]`: a linked list plus a capacity. -/
structure LinkedBlockingQueue (E : Type) where
  items : LinkedList E
  cap : Int
deriving DecidableEq

/-- `NewLinkedBlockingQueue[E](cap)`. -/
def NewLinkedBlockingQueue (E : Type) (cap : Int) : LinkedBlockingQueue E :=
  { items := NewLinkedList E [], cap := cap }

namespace LinkedBlockingQueue

variable {E : Type}

/-- `Count()`. -/
def Count (q : LinkedBlockingQueue E) : Int := q.items.Count

/-- `IsEmpty()`. -/
def IsEmpty (q : LinkedBlockingQueue E) : Bool := q.items.IsEmpty

/-- `Clear()`. -/
def Clear (q : LinkedBlockingQueue E) : LinkedBlockingQueue E :=
  { q with items := q.items.Clear }

/-- `Peek()`. -/
def Peek [Inhabited E] (q : LinkedBlockingQueue E) : E × Bool :=
  if q.items.IsEmpty then (default, false) else q.items.First

/-- `TryEnqueue(value)`: refuses when the capacity equals the list
length, else pushes at the back. -/
def TryEnqueue (value : E) (q : LinkedBlockingQueue E) : Bool × LinkedBlockingQueue E :=
  if q.cap == q.items.Count then (false, q)
  else (true, { q with items := q.items.Push [value] })

/-- `TryDequeue()`: zero value and false on empty, else shifts the
front element off the list. -/
def TryDequeue [Inhabited E] (q : LinkedBlockingQueue E) : (E × Bool) × LinkedBlockingQueue E :=
  if q.items.IsEmpty then ((default, false), q)
  else
    let r := q.items.Shift
    (r.1, { q with items := r.2 })

/-- `Enqueue(value)`: waits while the capacity equals the list length;
with no other thread the wait never ends, modeled as `none`. -/
def Enqueue (value : E) (q : LinkedBlockingQueue E) : Option (LinkedBlockingQueue E) :=
  if q.cap == q.items.Count then none
  else some { q with items := q.items.Push [value] }

/-- `Dequeue()`: waits while the list is empty; with no other thread the
wait never ends, modeled as `none`. -/
def Dequeue [Inhabited E] (q : LinkedBlockingQueue E) : Option (E × LinkedBlockingQueue E) :=
  if q.items.IsEmpty then none
  else
    let r := q.items.Shift
    some (r.1.1, { q with items := r.2 })

end LinkedBlockingQueue

/-! ## PriorityQueue (src/unnamed/part_003, binary min-heap over a
dense slice)

Slice indexing `q.items[i]` is total in the model through a default
element; the source panics on an out-of-range index, which no operation
reaches from a consistent state (claim C10). -/

/-- Go `q.items[i]` with a default for the out-of-range case. -/
def getI {E : Type} [Inhabited E] (l : List E) (i : Nat) : E := l.getD i default

/-- Go `q.swap(i, j)`: parallel assignment of the two slots, reading
both before writing. -/
def swapAt {E : Type} [Inhabited E] (l : List E) (i j : Nat) : List E :=
  (l.set i (getI l j)).set j (getI l i)

/-- The sift-up loop of `Enqueue`: while the element at `index` compares
below its parent `(index-1)/2`, swap them and move up.  Go's `int64`
division truncates toward zero, so at index 0 the parent expression is
again 0, as it is here with truncated `Nat` subtraction; the source
loop then spins forever when the comparator reports an element below
itself, a case the model exits from instead (every comparator used in
the theorems below is irreflexive, where the two agree). -/
def siftUp {E : Type} [Inhabited E] (cmp : E → E → Int) (l : List E) (index : Nat) : List E :=
  if h : index ≠ 0 ∧ cmp (getI l index) (getI l ((index - 1) / 2)) < 0 then
    siftUp cmp (swapAt l index ((index - 1) / 2)) ((index - 1) / 2)
  else l
termination_by index
decreasing_by omega

/-- The sift-down loop of `Dequeue`: starting from `index`, pick the
smaller child (`leftIndex = 2*index+1`, right one position further when
present and smaller), swap while it compares below the parent.  The Go
guard `leftIndex < 0` only fires on `int64` overflow, out of reach
here; `lastIndex` is `-1` in Go when the heap became empty, and the
loop breaks at once, exactly as with the truncated `Nat` value 0. -/
def siftDown {E : Type} [Inhabited E] (cmp : E → E → Int) (l : List E)
    (index lastIndex : Nat) : List E :=
  if h1 : lastIndex < index * 2 + 1 then l
  else if h2 : index * 2 + 2 ≤ lastIndex ∧
      cmp (getI l (index * 2 + 2)) (getI l (index * 2 + 1)) < 0 then
    if cmp (getI l (index * 2 + 2)) (getI l index) < 0 then
      siftDown cmp (swapAt l (index * 2 + 2) index) (index * 2 + 2) lastIndex
    else l
  else
    if cmp (getI l (index * 2 + 1)) (getI l index) < 0 then
      siftDown cmp (swapAt l (index * 2 + 1) index) (index * 2 + 1) lastIndex
    else l
termination_by lastIndex + 1 - index
decreasing_by
  all_goals omega

/-- State of `PriorityQueue[E]`: stored size, backing slice in heap
order, and the injected comparator. -/
structure PriorityQueue (E : Type) where
  size : Int
  items : List E
  comparator : E → E → Int

namespace PriorityQueue

variable {E : Type}

/-- `Count()` returns the stored size field. -/
def Count (q : PriorityQueue E) : Int := q.size

/-- `IsEmpty()`. -/
def IsEmpty (q : PriorityQueue E) : Bool := q.Count == 0

/-- `IsNotEmpty()`. -/
def IsNotEmpty (q : PriorityQueue E) : Bool := !q.IsEmpty

/-- `Clear()`. -/
def Clear (q : PriorityQueue E) : PriorityQueue E :=
  { q with items := [], size := 0 }

/-- `Peek()`: zero value and false when the size is 0, else the root
`q.items[0]`, not removed. -/
def Peek [Inhabited E] (q : PriorityQueue E) : E × Bool :=
  if q.size == 0 then (default, false) else (getI q.items 0, true)

/-- `Enqueue(value)`: append, increment the size, then sift up from the
new last index (Go starts the loop at `q.size - 1` after the
increment). -/
def Enqueue [Inhabited E] (value : E) (q : PriorityQueue E) : PriorityQueue E :=
  { q with
    items := siftUp q.comparator (q.items ++ [value]) ((q.size + 1 - 1).toNat)
    size := q.size + 1 }

/-- `Dequeue()`: zero value and false when the size is 0; else return
the root, swap it with the last element, shrink the slice by one,
decrement the size, and sift down from the root with
`lastIndex = q.size - 1` over the new size. -/
def Dequeue [Inhabited E] (q : PriorityQueue E) : (E × Bool) × PriorityQueue E :=
  if q.size == 0 then ((default, false), q)
  else
    let value := getI q.items 0
    let shrunk := (swapAt q.items 0 ((q.size - 1).toNat)).take ((q.size - 1).toNat)
    ((value, true),
      { q with
        items := siftDown q.comparator shrunk 0 ((q.size - 1 - 1).toNat)
        size := q.size - 1 })

/-- `RemoveWhere(callback)`: `slices.DeleteFunc` keeps exactly the items
the callback rejects, then the size is recomputed from the slice
length.  No re-heapify happens. -/
def RemoveWhere (callback : E → Bool) (q : PriorityQueue E) : PriorityQueue E :=
  let items := q.items.filter (fun e => !callback e)
  { q with items := items, size := (items.length : Int) }

/-- `Remove(value)` removes by `reflect.DeepEqual` through
`RemoveWhere`. -/
def Remove [DecidableEq E] (value : E) (q : PriorityQueue E) : PriorityQueue E :=
  q.RemoveWhere (fun e => e == value)

/-- `ToArray()` exposes the backing slice in heap order. -/
def ToArray (q : PriorityQueue E) : List E := q.items

/-- `ToJSON()` marshals `ToArray()`. -/
def ToJSON (enc : E → Json) (q : PriorityQueue E) : Json :=
  encodeJsonList enc q.ToArray

/-- `UnmarshalJSON(data)`: decodes a fresh slice; the source returns a
nil error even when the decode failed (`return nil` where the error is
non-nil), leaving the queue untouched in that case; on success it
clears the queue and enqueues every decoded value. -/
def UnmarshalJSON [Inhabited E] (dec : Json → Option E) (data : Json)
    (q : PriorityQueue E) : GoError × PriorityQueue E :=
  match decodeJsonList dec data with
  | Except.error _ => ((none : GoError), q)
  | Except.ok items =>
    ((none : GoError), items.foldl (fun acc item => acc.Enqueue item) q.Clear)

end PriorityQueue

/-- `NewPriorityQueue[E](comparator, values...)` enqueues each initial
value into an empty queue. -/
def NewPriorityQueue (E : Type) [Inhabited E] (comparator : E → E → Int)
    (values : List E) : PriorityQueue E :=
  values.foldl (fun acc value => acc.Enqueue value)
    { size := 0, items := [], comparator := comparator }

/-! ## PriorityBlockingQueue (src/unnamed/part_007) -/

/-- State of `PriorityBlockingQueue[E]`: a priority queue plus a
capacity. -/
structure PriorityBlockingQueue (E : Type) where
  items : PriorityQueue E
  cap : Int

/-- `NewPriorityBlockingQueue[E](comparator, cap)`. -/
def NewPriorityBlockingQueue (E : Type) [Inhabited E] (comparator : E → E → Int)
    (cap : Int) : PriorityBlockingQueue E :=
  { items := NewPriorityQueue E comparator [], cap := cap }

namespace PriorityBlockingQueue

variable {E : Type}

/-- `Count()`. -/
def Count (q : PriorityBlockingQueue E) : Int := q.items.Count

/-- `IsEmpty()`. -/
def IsEmpty (q : PriorityBlockingQueue E) : Bool := q.items.IsEmpty

/-- `Peek()`. -/
def Peek [Inhabited E] (q : PriorityBlockingQueue E) : E × Bool := q.items.Peek

/-- `TryEnqueue(value)`: refuses when the capacity equals the heap
count, else enqueues into the heap. -/
def TryEnqueue [Inhabited E] (value : E) (q : PriorityBlockingQueue E) :
    Bool × PriorityBlockingQueue E :=
  if q.cap == q.items.Count then (false, q)
  else (true, { q with items := q.items.Enqueue value })

/-- `TryDequeue()`: zero value and false when the heap count is 0, else
dequeues the root from the heap. -/
def TryDequeue [Inhabited E] (q : PriorityBlockingQueue E) :
    (E × Bool) × PriorityBlockingQueue E :=
  if q.items.Count == 0 then ((default, false), q)
  else
    let r := q.items.Dequeue
    (r.1, { q with items := r.2 })

/-- `Enqueue(value)`: waits while the capacity equals the heap count;
with no other thread the wait never ends, modeled as `none`. -/
def Enqueue [Inhabited E] (value : E) (q : PriorityBlockingQueue E) :
    Option (PriorityBlockingQueue E) :=
  if q.cap == q.items.Count then none
  else some { q with items := q.items.Enqueue value }

/-- `Dequeue()`: waits while the heap is empty; with no other thread the
wait never ends, modeled as `none`. -/
def Dequeue [Inhabited E] (q : PriorityBlockingQueue E) :
    Option ((E × Bool) × PriorityBlockingQueue E) :=
  if q.items.IsEmpty then none
  else
    let r := q.items.Dequeue
    some (r.1, { q with items := r.2 })

end PriorityBlockingQueue

/-! ## Derived sequential runs and consistency predicates -/

/-- Consistency of the stored size field of a `BlockingQueue` with its
backing slice (the implicit invariant of claim C10). -/
def BlockingQueue.WF {E : Type} (q : BlockingQueue E) : Prop :=
  q.size = (q.items.length : Int)

/-- Consistency of the stored size field of a `PriorityQueue` with its
backing slice. -/
def PriorityQueue.WF {E : Type} (q : PriorityQueue E) : Prop :=
  q.size = (q.items.length : Int)

/-- A finite sequence of single-threaded blocking `Enqueue` calls on the
array-backed queue; `none` as soon as one of them would block forever. -/
def BlockingQueue.enqueueAll {E : Type} : List E → BlockingQueue E → Option (BlockingQueue E)
  | [], q => some q
  | value :: rest, q =>
    match q.Enqueue value with
    | none => none
    | some q2 => enqueueAll rest q2

/-- `n` successive single-threaded blocking `Dequeue` calls on the
array-backed queue, collecting the returned values in call order. -/
def BlockingQueue.dequeueAll {E : Type} [Inhabited E] :
    Nat → BlockingQueue E → Option (List E × BlockingQueue E)
  | 0, q => some ([], q)
  | n + 1, q =>
    match q.Dequeue with
    | none => none
    | some (value, q2) =>
      match dequeueAll n q2 with
      | none => none
      | some (values, q3) => some (value :: values, q3)

/-- A finite sequence of single-threaded blocking `Enqueue` calls on the
linked queue. -/
def LinkedBlockingQueue.enqueueAll {E : Type} :
    List E → LinkedBlockingQueue E → Option (LinkedBlockingQueue E)
  | [], q => some q
  | value :: rest, q =>
    match q.Enqueue value with
    | none => none
    | some q2 => enqueueAll rest q2

/-- `n` successive single-threaded blocking `Dequeue` calls on the
linked queue. -/
def LinkedBlockingQueue.dequeueAll {E : Type} [Inhabited E] :
    Nat → LinkedBlockingQueue E → Option (List E × LinkedBlockingQueue E)
  | 0, q => some ([], q)
  | n + 1, q =>
    match q.Dequeue with
    | none => none
    | some (value, q2) =>
      match dequeueAll n q2 with
      | none => none
      | some (values, q3) => some (value :: values, q3)

/-- `n` successive `Dequeue` calls on a priority queue, collecting the
returned values until one reports emptiness. -/
def PriorityQueue.dequeueList {E : Type} [Inhabited E] :
    Nat → PriorityQueue E → List E
  | 0, _ => []
  | n + 1, q =>
    let r := q.Dequeue
    if r.1.2 then r.1.1 :: dequeueList n r.2 else []

/-- The binary min-heap invariant of the dense slice: every non-root
slot is at least its parent slot `(j-1)/2`.  Phrased through a linear
order standing for the injected comparator (`compare a b < 0` iff
`a < b`). -/
def IsMinHeap {E : Type} [Inhabited E] [LinearOrder E] (l : List E) : Prop :=
  ∀ j : Nat, 0 < j → j < l.length → getI l ((j - 1) / 2) ≤ getI l j

/-- Heap invariant except possibly on the edge into slot `i` from its
parent: the state sift-up walks through. -/
def heapExceptAt {E : Type} [Inhabited E] [LinearOrder E] (l : List E) (i : Nat) : Prop :=
  ∀ j : Nat, 0 < j → j < l.length → j ≠ i → getI l ((j - 1) / 2) ≤ getI l j

/-- Heap invariant except possibly on the edges out of slot `i` to its
children: the state sift-down walks through. -/
def heapExceptBelow {E : Type} [Inhabited E] [LinearOrder E] (l : List E) (i : Nat) : Prop :=
  ∀ j : Nat, 0 < j → j < l.length → (j - 1) / 2 ≠ i → getI l ((j - 1) / 2) ≤ getI l j

/-- When slot `i` is not the root, its parent already dominates the
children of `i`: the bridging fact both sift loops maintain. -/
def parentDom {E : Type} [Inhabited E] [LinearOrder E] (l : List E) (i : Nat) : Prop :=
  0 < i → ∀ c : Nat, c < l.length → (c - 1) / 2 = i → getI l ((i - 1) / 2) ≤ getI l c

/-- The numeric ascending three-way comparator of the tests. -/
def cmpInt (a b : Int) : Int := if a < b then -1 else if a = b then 0 else 1

/-- JSON encoder for `int` elements. -/
def encInt (n : Int) : Json := Json.num n

/-- JSON decoder for `int` elements: anything but a number is a type
mismatch. -/
def decInt : Json → Option Int
  | Json.num n => some n
  | _ => none

/-! ## Plain Queue and its array storage, and the blocking wrappers of
UnmarshalJSON -/

/-- Modelled from the spec: the array-backed storage `list.List` of
package list is missing from the repository's files (only its linked
counterpart is present); per the spec it is a dynamic array supplying
insert-at-end, remove-from-front, peek-front and a full-contents
snapshot, so its state is its element sequence. -/
structure ArrayList (E : Type) where
  items : List E

/-- Modelled from the spec: `list.NewList[E](values...)` builds the
array list holding exactly the given values in order (README usage and
the Queue tests show `NewQueue(1,2,3).ToArray() = [1,2,3]`). -/
def NewList (E : Type) (values : List E) : ArrayList E :=
  { items := values }

/-- Modelled from the spec: `ToArray` is the full-contents snapshot of
the array list. -/
def ArrayList.ToArray {E : Type} (l : ArrayList E) : List E := l.items

/-- State of the plain `Queue[E]` (src/unnamed/part_003): it wraps the
array list storage. -/
structure Queue (E : Type) where
  items : ArrayList E

/-- `NewQueue[E](values...)`. -/
def NewQueue (E : Type) (values : List E) : Queue E :=
  { items := NewList E values }

/-- `Queue.ToArray()` delegates to the storage snapshot. -/
def Queue.ToArray {E : Type} (q : Queue E) : List E := q.items.ToArray

/-- `Queue.UnmarshalJSON(data)`: decodes a fresh slice, returns the
decode error with the queue untouched on failure, otherwise replaces
the storage with a brand-new list of exactly the decoded values
(`q.items = list.NewList[E](values...)`). -/
def Queue.UnmarshalJSON {E : Type} (dec : Json → Option E) (data : Json) (q : Queue E) :
    GoError × Queue E :=
  match decodeJsonList dec data with
  | Except.error e => (some e, q)
  | Except.ok values => ((none : GoError), { items := NewList E values })

/-- The enqueue loop of `LinkedBlockingQueue.UnmarshalJSON`: each
decoded value waits on the put condition while the list length equals
the capacity before being pushed at the back; with no other thread
that wait never ends, modeled as `none`. -/
def LinkedBlockingQueue.unmarshalLoop {E : Type} :
    List E → LinkedBlockingQueue E → Option (LinkedBlockingQueue E)
  | [], q => some q
  | value :: rest, q =>
    if q.items.Count == q.cap then none
    else unmarshalLoop rest { q with items := q.items.Push [value] }

/-- `LinkedBlockingQueue.UnmarshalJSON(data)`: decodes a fresh slice,
returns the decode error with the queue untouched on failure, otherwise
pushes every decoded value after the existing contents. -/
def LinkedBlockingQueue.UnmarshalJSON {E : Type} (dec : Json → Option E) (data : Json)
    (q : LinkedBlockingQueue E) : Option (GoError × LinkedBlockingQueue E) :=
  match decodeJsonList dec data with
  | Except.error e => some (some e, q)
  | Except.ok values => (unmarshalLoop values q).map (fun q2 => ((none : GoError), q2))

/-- The enqueue loop of `PriorityBlockingQueue.UnmarshalJSON`: each
decoded value waits on the put condition while the heap count equals
the capacity before being enqueued; with no other thread that wait
never ends, modeled as `none`. -/
def PriorityBlockingQueue.unmarshalLoop {E : Type} [Inhabited E] :
    List E → PriorityBlockingQueue E → Option (PriorityBlockingQueue E)
  | [], q => some q
  | value :: rest, q =>
    if q.cap == q.items.Count then none
    else unmarshalLoop rest { q with items := q.items.Enqueue value }

/-- `PriorityBlockingQueue.UnmarshalJSON(data)`: decodes a fresh slice,
returns the decode error with the queue untouched on failure, otherwise
clears the heap and enqueues every decoded value. -/
def PriorityBlockingQueue.UnmarshalJSON {E : Type} [Inhabited E] (dec : Json → Option E)
    (data : Json) (q : PriorityBlockingQueue E) :
    Option (GoError × PriorityBlockingQueue E) :=
  match decodeJsonList dec data with
  | Except.error e => some (some e, q)
  | Except.ok values =>
    (PriorityBlockingQueue.unmarshalLoop values { q with items := q.items.Clear }).map
      (fun q2 => ((none : GoError), q2))

/-! ## Index and swap toolkit -/

section IndexLemmas

variable {E : Type} [Inhabited E]

theorem getI_eq_getElem (l : List E) {i : Nat} (h : i < l.length) : getI l i = l[i] := by
  simp [getI, List.getD_eq_getElem?_getD, List.getElem?_eq_getElem h]

theorem getI_append_left (l t : List E) {j : Nat} (h : j < l.length) :
    getI (l ++ t) j = getI l j := by
  simp [getI, List.getD_eq_getElem?_getD, List.getElem?_append_left h]

theorem getI_concat_self (l : List E) (a : E) : getI (l ++ [a]) l.length = a := by
  simp [getI, List.getD_eq_getElem?_getD]

theorem getI_take {l : List E} {k n : Nat} (h : k < n) : getI (l.take n) k = getI l k := by
  simp [getI, List.getD_eq_getElem?_getD, List.getElem?_take, h]

theorem getI_set_self {l : List E} {i : Nat} (h : i < l.length) (x : E) :
    getI (l.set i x) i = x := by
  simp [getI, List.getD_eq_getElem?_getD, List.getElem?_set_self h]

theorem getI_set_ne {l : List E} {i j : Nat} (h : j ≠ i) (x : E) :
    getI (l.set i x) j = getI l j := by
  simp [getI, List.getD_eq_getElem?_getD, List.getElem?_set_ne (Ne.symm h)]

theorem length_swapAt (l : List E) (i j : Nat) : (swapAt l i j).length = l.length := by
  simp [swapAt]

theorem getI_swapAt_left {l : List E} {i : Nat} (j : Nat) (hi : i < l.length) :
    getI (swapAt l i j) i = getI l j := by
  unfold swapAt
  by_cases hij : i = j
  · subst hij
    rw [List.set_set, getI_set_self hi]
  · rw [getI_set_ne hij, getI_set_self hi]

theorem getI_swapAt_right {l : List E} (i : Nat) {j : Nat} (hj : j < l.length) :
    getI (swapAt l i j) j = getI l i := by
  unfold swapAt
  rw [getI_set_self (by simpa using hj)]

theorem getI_swapAt_ne {l : List E} {i j k : Nat} (h1 : k ≠ i) (h2 : k ≠ j) :
    getI (swapAt l i j) k = getI l k := by
  unfold swapAt
  rw [getI_set_ne h2, getI_set_ne h1]

theorem set_getI_self : ∀ (l : List E) (i : Nat), i < l.length → l.set i (getI l i) = l := by
  intro l
  induction l with
  | nil => intro i h; simp at h
  | cons x t ih =>
    intro i h
    cases i with
    | zero => simp [getI]
    | succ m =>
      have hm : m < t.length := by simpa using h
      simpa [getI] using ih m hm

theorem swapAt_self {l : List E} {i : Nat} (h : i < l.length) : swapAt l i i = l := by
  unfold swapAt
  rw [List.set_set]
  exact set_getI_self l i h

theorem cons_set_perm : ∀ (t : List E) (j : Nat) (x : E), j < t.length →
    List.Perm (getI t j :: t.set j x) (x :: t) := by
  intro t
  induction t with
  | nil => intro j x h; simp at h
  | cons y t2 ih =>
    intro j x h
    cases j with
    | zero =>
      simpa [getI] using List.Perm.swap x y t2
    | succ m =>
      have hm : m < t2.length := by simpa using h
      have step1 : List.Perm (getI t2 m :: y :: t2.set m x) (y :: getI t2 m :: t2.set m x) :=
        List.Perm.swap y (getI t2 m) (t2.set m x)
      have step2 : List.Perm (y :: getI t2 m :: t2.set m x) (y :: x :: t2) :=
        List.Perm.cons y (ih m x hm)
      have step3 : List.Perm (y :: x :: t2) (x :: y :: t2) := List.Perm.swap x y t2
      simpa [getI] using (step1.trans step2).trans step3

theorem swapAt_perm : ∀ (l : List E) (i j : Nat), i < l.length → j < l.length →
    List.Perm (swapAt l i j) l := by
  intro l
  induction l with
  | nil => intro i j h; simp at h
  | cons x t ih =>
    intro i j hi hj
    cases i with
    | zero =>
      cases j with
      | zero => rw [swapAt_self hi]
      | succ m =>
        have hm : m < t.length := by simpa using hj
        have hshape : swapAt (x :: t) 0 (m + 1) = getI t m :: t.set m x := by
          simp [swapAt, getI]
        rw [hshape]
        exact cons_set_perm t m x hm
    | succ m =>
      cases j with
      | zero =>
        have hm : m < t.length := by simpa using hi
        have hshape : swapAt (x :: t) (m + 1) 0 = getI t m :: t.set m x := by
          simp [swapAt, getI]
        rw [hshape]
        exact cons_set_perm t m x hm
      | succ k =>
        have hm : m < t.length := by simpa using hi
        have hk : k < t.length := by simpa using hj
        have hshape : swapAt (x :: t) (m + 1) (k + 1) = x :: swapAt t m k := by
          simp [swapAt, getI]
        rw [hshape]
        exact List.Perm.cons x (ih m k hm hk)

end IndexLemmas

/-! ## Sift loop lemmas -/

section SiftLemmas

variable {E : Type} [Inhabited E]

theorem siftUp_length (cmp : E → E → Int) (l : List E) (i : Nat) :
    (siftUp cmp l i).length = l.length := by
  induction l, i using siftUp.induct cmp with
  | case1 l i h ih =>
    rw [siftUp, dif_pos h, ih, length_swapAt]
  | case2 l i h =>
    rw [siftUp, dif_neg h]

theorem siftUp_perm (cmp : E → E → Int) :
    ∀ (l : List E) (i : Nat), i < l.length → List.Perm (siftUp cmp l i) l := by
  intro l i
  induction l, i using siftUp.induct cmp with
  | case1 l i h ih =>
    intro hi
    have hp : (i - 1) / 2 < l.length := lt_trans (by omega) hi
    rw [siftUp, dif_pos h]
    exact (ih (by rw [length_swapAt]; exact hp)).trans (swapAt_perm l i ((i - 1) / 2) hi hp)
  | case2 l i h =>
    intro _
    rw [siftUp, dif_neg h]

theorem siftDown_length (cmp : E → E → Int) (l : List E) (i last : Nat) :
    (siftDown cmp l i last).length = l.length := by
  induction l, i, last using siftDown.induct cmp with
  | case1 l i last h1 =>
    rw [siftDown, dif_pos h1]
  | case2 l i last h1 h2 hc ih =>
    rw [siftDown, dif_neg h1, dif_pos h2, if_pos hc, ih, length_swapAt]
  | case3 l i last h1 h2 hc =>
    rw [siftDown, dif_neg h1, dif_pos h2, if_neg hc]
  | case4 l i last h1 h2 hc ih =>
    rw [siftDown, dif_neg h1, dif_neg h2, if_pos hc, ih, length_swapAt]
  | case5 l i last h1 h2 hc =>
    rw [siftDown, dif_neg h1, dif_neg h2, if_neg hc]

theorem siftDown_perm (cmp : E → E → Int) :
    ∀ (l : List E) (i last : Nat), last < l.length → List.Perm (siftDown cmp l i last) l := by
  intro l i last
  induction l, i, last using siftDown.induct cmp with
  | case1 l i last h1 =>
    intro _
    rw [siftDown, dif_pos h1]
  | case2 l i last h1 h2 hc ih =>
    intro hlen
    have hs : i * 2 + 2 < l.length := lt_of_le_of_lt h2.1 hlen
    have hi : i < l.length := lt_trans (by omega) hs
    rw [siftDown, dif_neg h1, dif_pos h2, if_pos hc]
    exact (ih (by rw [length_swapAt]; exact hlen)).trans
      (swapAt_perm l (i * 2 + 2) i hs hi)
  | case3 l i last h1 h2 hc =>
    intro _
    rw [siftDown, dif_neg h1, dif_pos h2, if_neg hc]
  | case4 l i last h1 h2 hc ih =>
    intro hlen
    have hs : i * 2 + 1 < l.length := lt_of_le_of_lt (by omega) hlen
    have hi : i < l.length := lt_trans (by omega) hs
    rw [siftDown, dif_neg h1, dif_neg h2, if_pos hc]
    exact (ih (by rw [length_swapAt]; exact hlen)).trans
      (swapAt_perm l (i * 2 + 1) i hs hi)
  | case5 l i last h1 h2 hc =>
    intro _
    rw [siftDown, dif_neg h1, dif_neg h2, if_neg hc]

end SiftLemmas

/-! ## Heap invariant preservation -/

section HeapLemmas

variable {E : Type} [Inhabited E] [LinearOrder E]

theorem heap_root_le (l : List E) (hl : IsMinHeap l) :
    ∀ j : Nat, j < l.length → getI l 0 ≤ getI l j := by
  intro j
  induction j using Nat.strong_induction_on with
  | _ j ih =>
    intro hj
    rcases Nat.eq_zero_or_pos j with rfl | hj0
    · exact le_refl _
    · exact le_trans (ih ((j - 1) / 2) (by omega) (lt_trans (by omega) hj)) (hl j hj0 hj)

theorem siftUp_heap (cmp : E → E → Int) (hcmp : ∀ a b : E, cmp a b < 0 ↔ a < b) :
    ∀ (l : List E) (i : Nat), i < l.length → heapExceptAt l i → parentDom l i →
      IsMinHeap (siftUp cmp l i) := by
  intro l i
  induction l, i using siftUp.induct cmp with
  | case2 l i h =>
    intro hi hx hpd
    rw [siftUp, dif_neg h]
    intro j hj0 hjlen
    by_cases hji : j = i
    · rcases not_and_or.mp h with h0 | hnl
      · have hz : i = 0 := not_not.mp h0
        exact absurd hj0 (by omega)
      · rw [hji]
        exact le_of_not_lt fun hlt => hnl ((hcmp _ _).mpr hlt)
    · exact hx j hj0 hjlen hji
  | case1 l i h ih =>
    intro hi hx hpd
    rw [siftUp, dif_pos h]
    have hi0 : i ≠ 0 := h.1
    have hlt : getI l i < getI l ((i - 1) / 2) := (hcmp _ _).mp h.2
    have hpi : (i - 1) / 2 < i := by omega
    have hplen : (i - 1) / 2 < l.length := lt_trans hpi hi
    have g_i : getI (swapAt l i ((i - 1) / 2)) i = getI l ((i - 1) / 2) :=
      getI_swapAt_left _ hi
    have g_p : getI (swapAt l i ((i - 1) / 2)) ((i - 1) / 2) = getI l i :=
      getI_swapAt_right _ hplen
    have g_other : ∀ k, k ≠ i → k ≠ (i - 1) / 2 →
        getI (swapAt l i ((i - 1) / 2)) k = getI l k :=
      fun k h1 h2 => getI_swapAt_ne h1 h2
    apply ih
    · rw [length_swapAt]; exact hplen
    · -- the array is a heap except on the edge into the parent slot
      intro j hj0 hjlen hjp
      rw [length_swapAt] at hjlen
      by_cases hji : j = i
      · rw [hji, show (i - 1) / 2 = (i - 1) / 2 from rfl, g_p, g_i]
        exact le_of_lt hlt
      · by_cases hpji : (j - 1) / 2 = i
        · rw [hpji, g_i, g_other j hji hjp]
          exact hpd (by omega) j hjlen hpji
        · by_cases hpjp : (j - 1) / 2 = (i - 1) / 2
          · rw [hpjp, g_p, g_other j hji hjp]
            have hpj := hx j hj0 hjlen hji
            rw [hpjp] at hpj
            exact le_of_lt (lt_of_lt_of_le hlt hpj)
          · rw [g_other _ hpji hpjp, g_other j hji hjp]
            exact hx j hj0 hjlen hji
    · -- the grandparent dominates the children of the parent slot
      intro hp0 c hclen hcp
      rw [length_swapAt] at hclen
      have hgp_ne_i : ((i - 1) / 2 - 1) / 2 ≠ i := by omega
      have hgp_ne_p : ((i - 1) / 2 - 1) / 2 ≠ (i - 1) / 2 := by omega
      rw [g_other _ hgp_ne_i hgp_ne_p]
      have hc_gt : (i - 1) / 2 < c := by omega
      by_cases hci : c = i
      · rw [hci, g_i]
        exact hx ((i - 1) / 2) (by omega) hplen (by omega)
      · have hcp2 : c ≠ (i - 1) / 2 := by omega
        rw [g_other c hci hcp2]
        have h1 : getI l (((i - 1) / 2 - 1) / 2) ≤ getI l ((i - 1) / 2) :=
          hx ((i - 1) / 2) (by omega) hplen (by omega)
        have h2 : getI l ((i - 1) / 2) ≤ getI l c := by
          have hstep := hx c (by omega) hclen hci
          rw [hcp] at hstep
          exact hstep
        exact le_trans h1 h2

theorem siftDown_heap (cmp : E → E → Int) (hcmp : ∀ a b : E, cmp a b < 0 ↔ a < b) :
    ∀ (l : List E) (i last : Nat), last + 1 = l.length →
      heapExceptBelow l i → parentDom l i → IsMinHeap (siftDown cmp l i last) := by
  intro l i last
  induction l, i, last using siftDown.induct cmp with
  | case1 l i last h1 =>
    intro hlen hb hpd
    rw [siftDown, dif_pos h1]
    intro j hj0 hjlen
    by_cases hpj : (j - 1) / 2 = i
    · exact absurd hpj (by omega)
    · exact hb j hj0 hjlen hpj
  | case3 l i last h1 h2 hc =>
    intro hlen hb hpd
    rw [siftDown, dif_neg h1, dif_pos h2, if_neg hc]
    intro j hj0 hjlen
    have hlr : getI l (i * 2 + 2) < getI l (i * 2 + 1) := (hcmp _ _).mp h2.2
    have hri : getI l i ≤ getI l (i * 2 + 2) :=
      le_of_not_lt fun hlt => hc ((hcmp _ _).mpr hlt)
    by_cases hpj : (j - 1) / 2 = i
    · have hj_or : j = i * 2 + 1 ∨ j = i * 2 + 2 := by omega
      rw [hpj]
      rcases hj_or with hj | hj
      · rw [hj]
        exact le_trans hri (le_of_lt hlr)
      · rw [hj]
        exact hri
    · exact hb j hj0 hjlen hpj
  | case5 l i last h1 h2 hc =>
    intro hlen hb hpd
    rw [siftDown, dif_neg h1, dif_neg h2, if_neg hc]
    intro j hj0 hjlen
    have hil : getI l i ≤ getI l (i * 2 + 1) :=
      le_of_not_lt fun hlt => hc ((hcmp _ _).mpr hlt)
    by_cases hpj : (j - 1) / 2 = i
    · have hj_or : j = i * 2 + 1 ∨ j = i * 2 + 2 := by omega
      rw [hpj]
      rcases hj_or with hj | hj
      · rw [hj]
        exact hil
      · rcases not_and_or.mp h2 with hr | hnlt
        · exact absurd hj (by omega)
        · have hlr : getI l (i * 2 + 1) ≤ getI l (i * 2 + 2) :=
            le_of_not_lt fun hlt => hnlt ((hcmp _ _).mpr hlt)
          rw [hj]
          exact le_trans hil hlr
    · exact hb j hj0 hjlen hpj
  | case2 l i last h1 h2 hc ih =>
    intro hlen hb hpd
    rw [siftDown, dif_neg h1, dif_pos h2, if_pos hc]
    have hs : i * 2 + 2 < l.length := by omega
    have ho : i * 2 + 1 < l.length := by omega
    have hilen : i < l.length := by omega
    have hlt_si : getI l (i * 2 + 2) < getI l i := (hcmp _ _).mp hc
    have hlr : getI l (i * 2 + 2) < getI l (i * 2 + 1) := (hcmp _ _).mp h2.2
    have g_s : getI (swapAt l (i * 2 + 2) i) (i * 2 + 2) = getI l i :=
      getI_swapAt_left _ hs
    have g_i : getI (swapAt l (i * 2 + 2) i) i = getI l (i * 2 + 2) :=
      getI_swapAt_right _ hilen
    have g_other : ∀ k, k ≠ i * 2 + 2 → k ≠ i →
        getI (swapAt l (i * 2 + 2) i) k = getI l k :=
      fun k ha hbne => getI_swapAt_ne ha hbne
    apply ih
    · rw [length_swapAt]; exact hlen
    · -- heap except below the new hole, the right child slot
      intro j hj0 hjlen hpjs
      rw [length_swapAt] at hjlen
      by_cases hji : j = i
      · have hi0 : 0 < i := by omega
        have hp_ne1 : (j - 1) / 2 ≠ i * 2 + 2 := by omega
        have hp_ne2 : (j - 1) / 2 ≠ i := by omega
        rw [g_other _ hp_ne1 hp_ne2, hji, g_i]
        have hres := hpd (by omega) (i * 2 + 2) hs (by omega)
        exact hres
      · by_cases hjs : j = i * 2 + 2
        · have e1 : getI (swapAt l (i * 2 + 2) i) ((j - 1) / 2) = getI l (i * 2 + 2) := by
            rw [show (j - 1) / 2 = i by omega, g_i]
          have e2 : getI (swapAt l (i * 2 + 2) i) j = getI l i := by
            rw [hjs, g_s]
          rw [e1, e2]
          exact le_of_lt hlt_si
        · have gj : getI (swapAt l (i * 2 + 2) i) j = getI l j := g_other _ hjs hji
          by_cases hpji : (j - 1) / 2 = i
          · have hjl : j = i * 2 + 1 := by omega
            rw [hpji, g_i, gj, hjl]
            exact le_of_lt hlr
          · rw [g_other _ hpjs hpji, gj]
            exact hb j hj0 hjlen hpji
    · -- the old parent slot dominates the children of the new hole
      intro _ c hclen hcs
      rw [length_swapAt] at hclen
      have hpe : (i * 2 + 2 - 1) / 2 = i := by omega
      have hc_gt : i * 2 + 2 < c := by omega
      have hc_ne_s : c ≠ i * 2 + 2 := by omega
      have hc_ne_i : c ≠ i := by omega
      rw [hpe, g_i, g_other c hc_ne_s hc_ne_i]
      have hstep := hb c (by omega) hclen (by omega)
      rw [hcs] at hstep
      exact hstep
  | case4 l i last h1 h2 hc ih =>
    intro hlen hb hpd
    rw [siftDown, dif_neg h1, dif_neg h2, if_pos hc]
    have hs : i * 2 + 1 < l.length := by omega
    have hilen : i < l.length := by omega
    have hlt_si : getI l (i * 2 + 1) < getI l i := (hcmp _ _).mp hc
    have g_s : getI (swapAt l (i * 2 + 1) i) (i * 2 + 1) = getI l i :=
      getI_swapAt_left _ hs
    have g_i : getI (swapAt l (i * 2 + 1) i) i = getI l (i * 2 + 1) :=
      getI_swapAt_right _ hilen
    have g_other : ∀ k, k ≠ i * 2 + 1 → k ≠ i →
        getI (swapAt l (i * 2 + 1) i) k = getI l k :=
      fun k ha hbne => getI_swapAt_ne ha hbne
    apply ih
    · rw [length_swapAt]; exact hlen
    · -- heap except below the new hole, the left child slot
      intro j hj0 hjlen hpjs
      rw [length_swapAt] at hjlen
      by_cases hji : j = i
      · have hi0 : 0 < i := by omega
        have hp_ne1 : (j - 1) / 2 ≠ i * 2 + 1 := by omega
        have hp_ne2 : (j - 1) / 2 ≠ i := by omega
        rw [g_other _ hp_ne1 hp_ne2, hji, g_i]
        have hres := hpd (by omega) (i * 2 + 1) hs (by omega)
        exact hres
      · by_cases hjs : j = i * 2 + 1
        · have e1 : getI (swapAt l (i * 2 + 1) i) ((j - 1) / 2) = getI l (i * 2 + 1) := by
            rw [show (j - 1) / 2 = i by omega, g_i]
          have e2 : getI (swapAt l (i * 2 + 1) i) j = getI l i := by
            rw [hjs, g_s]
          rw [e1, e2]
          exact le_of_lt hlt_si
        · have gj : getI (swapAt l (i * 2 + 1) i) j = getI l j := g_other _ hjs hji
          by_cases hpji : (j - 1) / 2 = i
          · have hjr : j = i * 2 + 2 := by omega
            rcases not_and_or.mp h2 with hr | hnlt
            · exact absurd hjr (by omega)
            · have hlr : getI l (i * 2 + 1) ≤ getI l (i * 2 + 2) :=
                le_of_not_lt fun hlt => hnlt ((hcmp _ _).mpr hlt)
              rw [hpji, g_i, gj, hjr]
              exact hlr
          · rw [g_other _ hpjs hpji, gj]
            exact hb j hj0 hjlen hpji
    · -- the old parent slot dominates the children of the new hole
      intro _ c hclen hcs
      rw [length_swapAt] at hclen
      have hpe : (i * 2 + 1 - 1) / 2 = i := by omega
      have hc_gt : i * 2 + 1 < c := by omega
      have hc_ne_s : c ≠ i * 2 + 1 := by omega
      have hc_ne_i : c ≠ i := by omega
      rw [hpe, g_i, g_other c hc_ne_s hc_ne_i]
      have hstep := hb c (by omega) hclen (by omega)
      rw [hcs] at hstep
      exact hstep

end HeapLemmas

/-! ## PriorityQueue operation lemmas -/

section PriorityLemmas

variable {E : Type} [Inhabited E]

theorem PriorityQueue.enqueue_comparator (q : PriorityQueue E) (v : E) :
    (q.Enqueue v).comparator = q.comparator := rfl

theorem PriorityQueue.dequeue_comparator (q : PriorityQueue E) :
    (q.Dequeue).2.comparator = q.comparator := by
  unfold PriorityQueue.Dequeue
  split <;> rfl

theorem PriorityQueue.enqueue_basic (q : PriorityQueue E) (hwf : q.WF) (v : E) :
    (q.Enqueue v).WF ∧ List.Perm (q.Enqueue v).items (v :: q.items) ∧
      (q.Enqueue v).size = q.size + 1 := by
  have h := hwf
  unfold PriorityQueue.WF at h
  have hidx : (q.size + 1 - 1).toNat = q.items.length := by omega
  have hlt : q.items.length < (q.items ++ [v]).length := by simp
  refine ⟨?_, ?_, rfl⟩
  · show q.size + 1 = _
    simp only [PriorityQueue.Enqueue, hidx]
    rw [siftUp_length]
    simp only [List.length_append, List.length_cons, List.length_nil]
    push_cast
    omega
  · simp only [PriorityQueue.Enqueue, hidx]
    exact (siftUp_perm _ _ _ hlt).trans (List.perm_append_singleton v q.items)

theorem heapExceptAt_concat {F : Type} [Inhabited F] [LinearOrder F]
    (l : List F) (v : F) (hl : IsMinHeap l) :
    heapExceptAt (l ++ [v]) l.length ∧ parentDom (l ++ [v]) l.length := by
  constructor
  · intro j hj0 hjlen hji
    have hjl : j < l.length := by
      have : j < l.length + 1 := by simpa using hjlen
      omega
    have hpl : (j - 1) / 2 < l.length := by omega
    rw [getI_append_left l [v] hjl, getI_append_left l [v] hpl]
    exact hl j hj0 hjl
  · intro h0 c hclen hcp
    have hc2 : c < l.length + 1 := by simpa using hclen
    exact absurd hcp (by omega)

theorem PriorityQueue.enqueue_spec [LinearOrder E] (q : PriorityQueue E)
    (hcmp : ∀ a b : E, q.comparator a b < 0 ↔ a < b) (hwf : q.WF)
    (hheap : IsMinHeap q.items) (v : E) :
    (q.Enqueue v).WF ∧ IsMinHeap (q.Enqueue v).items ∧
      List.Perm (q.Enqueue v).items (v :: q.items) ∧ (q.Enqueue v).size = q.size + 1 := by
  obtain ⟨h1, h2, h3⟩ := q.enqueue_basic hwf v
  refine ⟨h1, ?_, h2, h3⟩
  have h := hwf
  unfold PriorityQueue.WF at h
  have hidx : (q.size + 1 - 1).toNat = q.items.length := by omega
  have hlt : q.items.length < (q.items ++ [v]).length := by simp
  obtain ⟨hx, hpd⟩ := heapExceptAt_concat q.items v hheap
  simp only [PriorityQueue.Enqueue, hidx]
  exact siftUp_heap q.comparator hcmp (q.items ++ [v]) q.items.length hlt hx hpd

theorem PriorityQueue.dequeue_spec [LinearOrder E] (q : PriorityQueue E)
    (hcmp : ∀ a b : E, q.comparator a b < 0 ↔ a < b) (hwf : q.WF)
    (hheap : IsMinHeap q.items) (hne : q.size ≠ 0) :
    (q.Dequeue).1 = (getI q.items 0, true) ∧
      (q.Dequeue).2.WF ∧ IsMinHeap (q.Dequeue).2.items ∧
      List.Perm (getI q.items 0 :: (q.Dequeue).2.items) q.items ∧
      (q.Dequeue).2.size = q.size - 1 ∧
      (∀ x ∈ q.items, getI q.items 0 ≤ x) := by
  have hminfact : ∀ x ∈ q.items, getI q.items 0 ≤ x := by
    intro x hx
    obtain ⟨j, hj, hval⟩ := List.getElem_of_mem hx
    rw [← hval, ← getI_eq_getElem q.items hj]
    exact heap_root_le q.items hheap j hj
  have hlen0 : q.items.length ≠ 0 := by
    intro h
    apply hne
    rw [hwf, h]
    rfl
  obtain ⟨m, hm⟩ : ∃ m, q.items.length = m + 1 := ⟨q.items.length - 1, by omega⟩
  have hsz : q.size = (m : Int) + 1 := by
    rw [hwf, hm]
    push_cast
    ring
  have hbeq : (q.size == 0) = false := by
    rw [beq_eq_false_iff_ne]
    rw [hsz]
    omega
  have hn1 : (q.size - 1).toNat = m := by omega
  have hn2 : (q.size - 1 - 1).toNat = m - 1 := by omega
  have hmlen : m < q.items.length := by omega
  have h0len : 0 < q.items.length := by omega
  have hswlen : (swapAt q.items 0 m).length = m + 1 := by rw [length_swapAt, hm]
  have hshrunk_len : ((swapAt q.items 0 m).take m).length = m := by
    rw [List.length_take, hswlen]
    omega
  have hshape : q.Dequeue = ((getI q.items 0, true),
      { q with
        items := siftDown q.comparator ((swapAt q.items 0 m).take m) 0 (m - 1)
        size := q.size - 1 }) := by
    unfold PriorityQueue.Dequeue
    rw [hbeq]
    simp only [Bool.false_eq_true, if_false]
    rw [hn1, hn2]
  have hperm_shrunk : List.Perm (getI q.items 0 :: (swapAt q.items 0 m).take m) q.items := by
    have hsplit : (swapAt q.items 0 m).take m ++ [getI q.items 0] = swapAt q.items 0 m := by
      have hdrop : (swapAt q.items 0 m).drop m = [getI q.items 0] := by
        have hgm : (swapAt q.items 0 m).drop m =
            (swapAt q.items 0 m)[m] :: (swapAt q.items 0 m).drop (m + 1) := by
          exact List.drop_eq_getElem_cons (by omega)
        rw [hgm]
        have hnil : (swapAt q.items 0 m).drop (m + 1) = [] := by
          apply List.drop_eq_nil_of_le
          omega
        rw [hnil]
        congr 1
        rw [← getI_eq_getElem _ (by omega)]
        exact getI_swapAt_right 0 hmlen
      calc (swapAt q.items 0 m).take m ++ [getI q.items 0]
          = (swapAt q.items 0 m).take m ++ (swapAt q.items 0 m).drop m := by rw [hdrop]
        _ = swapAt q.items 0 m := List.take_append_drop m _
    have h01 : List.Perm (getI q.items 0 :: (swapAt q.items 0 m).take m)
        ((swapAt q.items 0 m).take m ++ [getI q.items 0]) :=
      (List.perm_append_singleton _ _).symm
    rw [hsplit] at h01
    exact h01.trans (swapAt_perm q.items 0 m h0len hmlen)
  rcases Nat.eq_zero_or_pos m with hm0 | hmpos
  · -- the heap had exactly one element: the shrunk slice is empty
    subst hm0
    have hshrunk : (swapAt q.items 0 0).take 0 = [] := by simp
    have hsd : siftDown q.comparator ((swapAt q.items 0 0).take 0) 0 (0 - 1) = [] := by
      rw [hshrunk, siftDown, dif_pos (by omega)]
    rw [hshape]
    refine ⟨rfl, ?_, ?_, ?_, rfl, hminfact⟩
    · show q.size - 1 = _
      rw [hsd]
      simp only [List.length_nil, Nat.cast_zero]
      omega
    · rw [hsd]
      intro j hj0 hjlen
      simp at hjlen
    · rw [hsd]
      rw [hshrunk] at hperm_shrunk
      exact hperm_shrunk
  · -- at least two elements: sift down restores the heap on the shrunk slice
    have hEB : heapExceptBelow ((swapAt q.items 0 m).take m) 0 := by
      intro j hj0 hjlen hpj0
      rw [hshrunk_len] at hjlen
      have hpj_lt : (j - 1) / 2 < j := by omega
      have gj : getI ((swapAt q.items 0 m).take m) j = getI q.items j := by
        rw [getI_take hjlen, getI_swapAt_ne (by omega) (by omega)]
      have gpj : getI ((swapAt q.items 0 m).take m) ((j - 1) / 2) = getI q.items ((j - 1) / 2) := by
        rw [getI_take (by omega), getI_swapAt_ne (by omega) (by omega)]
      rw [gj, gpj]
      exact hheap j hj0 (by omega)
    have hPD : parentDom ((swapAt q.items 0 m).take m) 0 := by
      intro h0
      exact absurd h0 (lt_irrefl 0)
    have hlast : (m - 1) + 1 = ((swapAt q.items 0 m).take m).length := by
      rw [hshrunk_len]
      omega
    have hheap2 : IsMinHeap (siftDown q.comparator ((swapAt q.items 0 m).take m) 0 (m - 1)) :=
      siftDown_heap q.comparator hcmp _ 0 (m - 1) hlast hEB hPD
    have hperm2 : List.Perm (siftDown q.comparator ((swapAt q.items 0 m).take m) 0 (m - 1))
        ((swapAt q.items 0 m).take m) := by
      apply siftDown_perm
      rw [hshrunk_len]
      omega
    rw [hshape]
    refine ⟨rfl, ?_, hheap2, ?_, rfl, hminfact⟩
    · show q.size - 1 = _
      rw [siftDown_length, hshrunk_len, hsz]
      omega
    · exact ((List.Perm.cons _ hperm2).trans hperm_shrunk)

theorem PriorityQueue.dequeueList_spec [LinearOrder E] :
    ∀ (n : Nat) (q : PriorityQueue E),
      (∀ a b : E, q.comparator a b < 0 ↔ a < b) → q.WF → IsMinHeap q.items →
      q.items.length = n →
      List.Perm (PriorityQueue.dequeueList n q) q.items ∧
        List.Sorted (fun a b => a ≤ b) (PriorityQueue.dequeueList n q) := by
  intro n
  induction n with
  | zero =>
    intro q hcmp hwf hheap hlen
    have hnil : q.items = [] := List.length_eq_zero.mp hlen
    simp [PriorityQueue.dequeueList, hnil]
  | succ k ih =>
    intro q hcmp hwf hheap hlen
    have hne : q.size ≠ 0 := by
      rw [hwf, hlen]
      exact_mod_cast Nat.succ_ne_zero k
    obtain ⟨h1, h2wf, h2heap, hperm, hsz, hmin⟩ := q.dequeue_spec hcmp hwf hheap hne
    have hcmp2 : ∀ a b : E, (q.Dequeue).2.comparator a b < 0 ↔ a < b := by
      rw [q.dequeue_comparator]
      exact hcmp
    have hlen2 : (q.Dequeue).2.items.length = k := by
      have hl := hperm.length_eq
      simp [hlen] at hl
      omega
    obtain ⟨ihp, ihs⟩ := ih (q.Dequeue).2 hcmp2 h2wf h2heap hlen2
    have hstep : PriorityQueue.dequeueList (k + 1) q =
        getI q.items 0 :: PriorityQueue.dequeueList k (q.Dequeue).2 := by
      simp only [PriorityQueue.dequeueList, h1]
      simp
    constructor
    · rw [hstep]
      exact (List.Perm.cons _ ihp).trans hperm
    · rw [hstep, List.sorted_cons]
      refine ⟨?_, ihs⟩
      intro b hb
      have hb2 : b ∈ (q.Dequeue).2.items := ihp.mem_iff.mp hb
      exact hmin b (hperm.mem_iff.mp (List.mem_cons_of_mem _ hb2))

theorem PriorityQueue.foldl_enqueue_perm :
    ∀ (vs : List E) (q : PriorityQueue E), q.WF →
      (vs.foldl (fun acc v => acc.Enqueue v) q).WF ∧
        List.Perm (vs.foldl (fun acc v => acc.Enqueue v) q).items (vs ++ q.items) ∧
        (vs.foldl (fun acc v => acc.Enqueue v) q).comparator = q.comparator := by
  intro vs
  induction vs with
  | nil =>
    intro q hwf
    exact ⟨hwf, by simp, rfl⟩
  | cons v rest ih =>
    intro q hwf
    obtain ⟨h1, h3, _⟩ := q.enqueue_basic hwf v
    obtain ⟨g1, g3, g4⟩ := ih (q.Enqueue v) h1
    refine ⟨g1, ?_, g4⟩
    simp only [List.foldl_cons]
    exact g3.trans ((List.Perm.append_left rest h3).trans List.perm_middle)

theorem PriorityQueue.foldl_enqueue_spec [LinearOrder E] :
    ∀ (vs : List E) (q : PriorityQueue E),
      (∀ a b : E, q.comparator a b < 0 ↔ a < b) → q.WF → IsMinHeap q.items →
      (vs.foldl (fun acc v => acc.Enqueue v) q).WF ∧
        IsMinHeap (vs.foldl (fun acc v => acc.Enqueue v) q).items ∧
        List.Perm (vs.foldl (fun acc v => acc.Enqueue v) q).items (vs ++ q.items) ∧
        (vs.foldl (fun acc v => acc.Enqueue v) q).comparator = q.comparator := by
  intro vs
  induction vs with
  | nil =>
    intro q hcmp hwf hheap
    exact ⟨hwf, hheap, by simp, rfl⟩
  | cons v rest ih =>
    intro q hcmp hwf hheap
    obtain ⟨h1, h2, h3, _⟩ := q.enqueue_spec hcmp hwf hheap v
    obtain ⟨g1, g2, g3, g4⟩ := ih (q.Enqueue v) hcmp h1 h2
    refine ⟨g1, g2, ?_, g4⟩
    simp only [List.foldl_cons]
    exact g3.trans ((List.Perm.append_left rest h3).trans List.perm_middle)

end PriorityLemmas

/-! ## Sequential run lemmas for the blocking queues -/

section RunLemmas

variable {E : Type}

theorem BlockingQueue.mk_eq {i1 i2 : List E} {s1 s2 c1 c2 : Int}
    (h1 : i1 = i2) (h2 : s1 = s2) (h3 : c1 = c2) :
    BlockingQueue.mk i1 s1 c1 = BlockingQueue.mk i2 s2 c2 := by
  rw [h1, h2, h3]

theorem BlockingQueue.enqueueAll_spec :
    ∀ (vs : List E) (q q2 : BlockingQueue E), BlockingQueue.enqueueAll vs q = some q2 →
      q2 = { items := q.items ++ vs, size := q.size + vs.length, cap := q.cap } := by
  intro vs
  induction vs with
  | nil =>
    intro q q2 h
    simp only [BlockingQueue.enqueueAll, Option.some.injEq] at h
    cases q
    simp [← h]
  | cons v rest ih =>
    intro q q2 h
    rw [BlockingQueue.enqueueAll] at h
    cases hq : q.Enqueue v with
    | none => rw [hq] at h; simp at h
    | some q3 =>
      rw [hq] at h
      have h2 := ih q3 q2 h
      unfold BlockingQueue.Enqueue at hq
      split at hq
      · simp at hq
      · rw [Option.some.injEq] at hq
        rw [h2, ← hq]
        exact BlockingQueue.mk_eq (by simp)
          (by simp only [List.length_cons]; push_cast; ring) rfl

theorem BlockingQueue.dequeueAll_spec [Inhabited E] :
    ∀ (l : List E) (q : BlockingQueue E), q.items = l → q.size = (l.length : Int) →
      BlockingQueue.dequeueAll l.length q =
        some (l, { items := [], size := 0, cap := q.cap }) := by
  intro l
  induction l with
  | nil =>
    intro q h1 h2
    cases q
    simp at h1 h2
    subst h1
    subst h2
    rfl
  | cons v rest ih =>
    intro q h1 h2
    have hne : (q.size == 0) = false := by
      rw [beq_eq_false_iff_ne, h2]
      simp only [List.length_cons]
      push_cast
      omega
    have hq : q.Dequeue = some (v, { items := rest, size := q.size - 1, cap := q.cap }) := by
      unfold BlockingQueue.Dequeue
      rw [hne]
      simp [h1]
    have hsz : q.size - 1 = (rest.length : Int) := by
      rw [h2]
      simp only [List.length_cons]
      push_cast
      omega
    have hrec := ih { items := rest, size := q.size - 1, cap := q.cap } rfl hsz
    simp only [List.length_cons]
    rw [BlockingQueue.dequeueAll, hq]
    dsimp only
    rw [hrec]

theorem BlockingQueue.unmarshalLoop_spec :
    ∀ (vs : List E) (q q2 : BlockingQueue E), BlockingQueue.unmarshalLoop vs q = some q2 →
      q2 = { items := q.items ++ vs, size := q.size + vs.length, cap := q.cap } := by
  intro vs
  induction vs with
  | nil =>
    intro q q2 h
    simp only [BlockingQueue.unmarshalLoop, Option.some.injEq] at h
    cases q
    simp [← h]
  | cons v rest ih =>
    intro q q2 h
    rw [BlockingQueue.unmarshalLoop] at h
    split at h
    · simp at h
    · have h2 := ih _ q2 h
      rw [h2]
      exact BlockingQueue.mk_eq (by simp)
        (by simp only [List.length_cons]; push_cast; ring) rfl

theorem BlockingQueue.unmarshalLoop_success :
    ∀ (vs : List E) (q : BlockingQueue E),
      q.cap < q.size ∨ q.size + vs.length ≤ q.cap →
      BlockingQueue.unmarshalLoop vs q =
        some { items := q.items ++ vs, size := q.size + vs.length, cap := q.cap } := by
  intro vs
  induction vs with
  | nil =>
    intro q hcond
    cases q
    simp [BlockingQueue.unmarshalLoop]
  | cons v rest ih =>
    intro q hcond
    have hne : (q.size == q.cap) = false := by
      rw [beq_eq_false_iff_ne]
      simp only [List.length_cons] at hcond
      push_cast at hcond
      omega
    rw [BlockingQueue.unmarshalLoop, hne]
    simp only [Bool.false_eq_true, if_false]
    have hrec := ih { items := q.items ++ [v], size := q.size + 1, cap := q.cap }
      (by simp only [List.length_cons] at hcond; push_cast at hcond ⊢; omega)
    rw [hrec]
    refine congrArg some (BlockingQueue.mk_eq (by simp)
      (by simp only [List.length_cons]; push_cast; ring) rfl)

theorem LinkedBlockingQueue.linked_enqueueAll_spec :
    ∀ (vs : List E) (q q2 : LinkedBlockingQueue E),
      LinkedBlockingQueue.enqueueAll vs q = some q2 →
      q2 = { items := { list := q.items.list ++ vs }, cap := q.cap } := by
  intro vs
  induction vs with
  | nil =>
    intro q q2 h
    simp only [LinkedBlockingQueue.enqueueAll, Option.some.injEq] at h
    cases q with
    | mk it c =>
      cases it
      simp [← h]
  | cons v rest ih =>
    intro q q2 h
    rw [LinkedBlockingQueue.enqueueAll] at h
    cases hq : q.Enqueue v with
    | none => rw [hq] at h; simp at h
    | some q3 =>
      rw [hq] at h
      have h2 := ih q3 q2 h
      unfold LinkedBlockingQueue.Enqueue at hq
      split at hq
      · simp at hq
      · rw [Option.some.injEq] at hq
        rw [h2, ← hq]
        simp [LinkedList.Push]

theorem LinkedBlockingQueue.linked_dequeueAll_spec [Inhabited E] :
    ∀ (l : List E) (q : LinkedBlockingQueue E), q.items.list = l →
      LinkedBlockingQueue.dequeueAll l.length q =
        some (l, { items := { list := [] }, cap := q.cap }) := by
  intro l
  induction l with
  | nil =>
    intro q h1
    cases q with
    | mk it c =>
      cases it
      simp at h1
      subst h1
      rfl
  | cons v rest ih =>
    intro q h1
    have hne : q.items.IsEmpty = false := by
      simp only [LinkedList.IsEmpty, LinkedList.Count, h1, List.length_cons]
      rw [beq_eq_false_iff_ne]
      push_cast
      omega
    have hq : q.Dequeue = some (v, { items := { list := rest }, cap := q.cap }) := by
      unfold LinkedBlockingQueue.Dequeue
      rw [hne]
      simp [LinkedList.Shift, h1]
    have hrec := ih { items := { list := rest }, cap := q.cap } rfl
    simp only [List.length_cons]
    rw [LinkedBlockingQueue.dequeueAll, hq]
    dsimp only
    rw [hrec]

end RunLemmas

/-! ## JSON codec lemmas -/

section CodecLemmas

theorem decode_encode_ok {E : Type} (dec : Json → Option E) (enc : E → Json)
    (hinv : ∀ e, dec (enc e) = some e) (values : List E) :
    decodeJsonList dec (encodeJsonList enc values) = Except.ok values := by
  have hmap : decodeElems dec (values.map enc) = some values := by
    induction values with
    | nil => rfl
    | cons v rest ih =>
      simp only [List.map_cons, decodeElems, hinv v, ih]
  simp only [encodeJsonList, decodeJsonList, hmap]

end CodecLemmas

/-! ## Order-free dequeue lemma -/

section DequeueBasic

variable {E : Type} [Inhabited E]

theorem PriorityQueue.dequeue_basic (q : PriorityQueue E) (hwf : q.WF) (hne : q.size ≠ 0) :
    (q.Dequeue).1 = (getI q.items 0, true) ∧ (q.Dequeue).2.WF ∧
      List.Perm (getI q.items 0 :: (q.Dequeue).2.items) q.items ∧
      (q.Dequeue).2.size = q.size - 1 := by
  have hlen0 : q.items.length ≠ 0 := by
    intro h
    apply hne
    rw [hwf, h]
    rfl
  obtain ⟨m, hm⟩ : ∃ m, q.items.length = m + 1 := ⟨q.items.length - 1, by omega⟩
  have hsz : q.size = (m : Int) + 1 := by
    rw [hwf, hm]
    push_cast
    ring
  have hbeq : (q.size == 0) = false := by
    rw [beq_eq_false_iff_ne, hsz]
    omega
  have hn1 : (q.size - 1).toNat = m := by omega
  have hn2 : (q.size - 1 - 1).toNat = m - 1 := by omega
  have hmlen : m < q.items.length := by omega
  have h0len : 0 < q.items.length := by omega
  have hswlen : (swapAt q.items 0 m).length = m + 1 := by rw [length_swapAt, hm]
  have hshrunk_len : ((swapAt q.items 0 m).take m).length = m := by
    rw [List.length_take, hswlen]
    omega
  have hshape : q.Dequeue = ((getI q.items 0, true),
      { q with
        items := siftDown q.comparator ((swapAt q.items 0 m).take m) 0 (m - 1)
        size := q.size - 1 }) := by
    unfold PriorityQueue.Dequeue
    rw [hbeq]
    simp only [Bool.false_eq_true, if_false]
    rw [hn1, hn2]
  have hperm_shrunk : List.Perm (getI q.items 0 :: (swapAt q.items 0 m).take m) q.items := by
    have hsplit : (swapAt q.items 0 m).take m ++ [getI q.items 0] = swapAt q.items 0 m := by
      have hdrop : (swapAt q.items 0 m).drop m = [getI q.items 0] := by
        have hgm : (swapAt q.items 0 m).drop m =
            (swapAt q.items 0 m)[m] :: (swapAt q.items 0 m).drop (m + 1) := by
          exact List.drop_eq_getElem_cons (by omega)
        rw [hgm]
        have hnil : (swapAt q.items 0 m).drop (m + 1) = [] := by
          apply List.drop_eq_nil_of_le
          omega
        rw [hnil]
        congr 1
        rw [← getI_eq_getElem _ (by omega)]
        exact getI_swapAt_right 0 hmlen
      calc (swapAt q.items 0 m).take m ++ [getI q.items 0]
          = (swapAt q.items 0 m).take m ++ (swapAt q.items 0 m).drop m := by rw [hdrop]
        _ = swapAt q.items 0 m := List.take_append_drop m _
    have h01 : List.Perm (getI q.items 0 :: (swapAt q.items 0 m).take m)
        ((swapAt q.items 0 m).take m ++ [getI q.items 0]) :=
      (List.perm_append_singleton _ _).symm
    rw [hsplit] at h01
    exact h01.trans (swapAt_perm q.items 0 m h0len hmlen)
  rcases Nat.eq_zero_or_pos m with hm0 | hmpos
  · subst hm0
    have hshrunk : (swapAt q.items 0 0).take 0 = [] := by simp
    have hsd : siftDown q.comparator ((swapAt q.items 0 0).take 0) 0 (0 - 1) = [] := by
      rw [hshrunk, siftDown, dif_pos (by omega)]
    rw [hshape]
    refine ⟨rfl, ?_, ?_, rfl⟩
    · show q.size - 1 = _
      rw [hsd]
      simp only [List.length_nil, Nat.cast_zero]
      omega
    · rw [hsd]
      rw [hshrunk] at hperm_shrunk
      exact hperm_shrunk
  · have hperm2 : List.Perm (siftDown q.comparator ((swapAt q.items 0 m).take m) 0 (m - 1))
        ((swapAt q.items 0 m).take m) := by
      apply siftDown_perm
      rw [hshrunk_len]
      omega
    rw [hshape]
    refine ⟨rfl, ?_, ?_, rfl⟩
    · show q.size - 1 = _
      rw [siftDown_length, hshrunk_len, hsz]
      omega
    · exact (List.Perm.cons _ hperm2).trans hperm_shrunk

theorem PriorityQueue.dequeue_empty (q : PriorityQueue E) (hz : q.size = 0) :
    q.Dequeue = ((default, false), q) := by
  unfold PriorityQueue.Dequeue
  rw [if_pos (by rw [beq_iff_eq]; exact hz)]

end DequeueBasic

/-! ## Unmarshal loop lemmas for the blocking wrappers -/

section WrapperLemmas

variable {E : Type}

theorem LinkedBlockingQueue.linked_unmarshalLoop_spec :
    ∀ (vs : List E) (q q2 : LinkedBlockingQueue E),
      LinkedBlockingQueue.unmarshalLoop vs q = some q2 →
      q2.items.list = q.items.list ++ vs ∧ q2.cap = q.cap := by
  intro vs
  induction vs with
  | nil =>
    intro q q2 h
    simp only [LinkedBlockingQueue.unmarshalLoop, Option.some.injEq] at h
    rw [← h]
    simp
  | cons v rest ih =>
    intro q q2 h
    rw [LinkedBlockingQueue.unmarshalLoop] at h
    split at h
    · simp at h
    · obtain ⟨g1, g2⟩ := ih _ q2 h
      refine ⟨?_, g2⟩
      rw [g1]
      simp [LinkedList.Push]

theorem PriorityBlockingQueue.priority_unmarshalLoop_spec [Inhabited E] :
    ∀ (vs : List E) (q q2 : PriorityBlockingQueue E), q.items.WF →
      PriorityBlockingQueue.unmarshalLoop vs q = some q2 →
      q2.items.WF ∧ List.Perm q2.items.items (q.items.items ++ vs) ∧ q2.cap = q.cap := by
  intro vs
  induction vs with
  | nil =>
    intro q q2 hwf h
    simp only [PriorityBlockingQueue.unmarshalLoop, Option.some.injEq] at h
    rw [← h]
    exact ⟨hwf, by simp, rfl⟩
  | cons v rest ih =>
    intro q q2 hwf h
    rw [PriorityBlockingQueue.unmarshalLoop] at h
    split at h
    · simp at h
    · obtain ⟨hwf2, hperm2, _⟩ := q.items.enqueue_basic hwf v
      obtain ⟨g1, g2, g3⟩ := ih { q with items := q.items.Enqueue v } q2 hwf2 h
      refine ⟨g1, ?_, g3⟩
      have s1 : List.Perm ((q.items.Enqueue v).items ++ rest)
          ((v :: q.items.items) ++ rest) := hperm2.append_right rest
      have s2 : List.Perm (v :: (q.items.items ++ rest))
          (q.items.items ++ v :: rest) := List.perm_middle.symm
      exact (g2.trans s1).trans s2

end WrapperLemmas

/-! ## Claim theorems -/

/-- C1: for the array- and linked-backed blocking queues with any
capacity (including 0), TryEnqueue(v) returns false and leaves the
contents and the size unchanged exactly when the size equals the
capacity at the instant of the call; otherwise it appends v at the
tail, increments the size, and returns true. -/
theorem claim_C1 {E : Type} (v : E) (q : BlockingQueue E) (p : LinkedBlockingQueue E) :
    (((q.TryEnqueue v).1 = false ∧ (q.TryEnqueue v).2 = q) ↔ q.size = q.cap) ∧
    (q.size ≠ q.cap →
      q.TryEnqueue v = (true, { items := q.items ++ [v], size := q.size + 1, cap := q.cap })) ∧
    (((p.TryEnqueue v).1 = false ∧ (p.TryEnqueue v).2 = p) ↔ p.items.Count = p.cap) ∧
    (p.items.Count ≠ p.cap →
      p.TryEnqueue v = (true, { items := p.items.Push [v], cap := p.cap })) := by
  have hbq_full : q.size = q.cap → q.TryEnqueue v = (false, q) := by
    intro he
    unfold BlockingQueue.TryEnqueue
    rw [if_pos (by rw [beq_iff_eq]; exact he.symm)]
  have hbq_room : q.size ≠ q.cap →
      q.TryEnqueue v = (true, { items := q.items ++ [v], size := q.size + 1, cap := q.cap }) := by
    intro hne
    unfold BlockingQueue.TryEnqueue
    rw [if_neg (by rw [beq_iff_eq]; exact fun h => hne h.symm)]
  have hlq_full : p.items.Count = p.cap → p.TryEnqueue v = (false, p) := by
    intro he
    unfold LinkedBlockingQueue.TryEnqueue
    rw [if_pos (by rw [beq_iff_eq]; exact he.symm)]
  have hlq_room : p.items.Count ≠ p.cap →
      p.TryEnqueue v = (true, { items := p.items.Push [v], cap := p.cap }) := by
    intro hne
    unfold LinkedBlockingQueue.TryEnqueue
    rw [if_neg (by rw [beq_iff_eq]; exact fun h => hne h.symm)]
  refine ⟨⟨?_, ?_⟩, hbq_room, ⟨?_, ?_⟩, hlq_room⟩
  · rintro ⟨h1, h2⟩
    by_contra hne
    rw [hbq_room hne] at h1
    simp at h1
  · intro he
    rw [hbq_full he]
    exact ⟨rfl, rfl⟩
  · rintro ⟨h1, h2⟩
    by_contra hne
    rw [hlq_room hne] at h1
    simp at h1
  · intro he
    rw [hlq_full he]
    exact ⟨rfl, rfl⟩

/-- C1 witness at a concrete non-full and a concrete full queue. -/
theorem claim_C1_witness :
    BlockingQueue.TryEnqueue (7 : Int) { items := [5], size := 1, cap := 2 } =
      (true, { items := [5, 7], size := 2, cap := 2 }) ∧
    LinkedBlockingQueue.TryEnqueue (7 : Int) { items := { list := [5] }, cap := 2 } =
      (true, { items := { list := [5, 7] }, cap := 2 }) := by
  constructor
  · exact (claim_C1 (7 : Int) { items := [5], size := 1, cap := 2 }
      { items := { list := [5] }, cap := 2 }).2.1 (by decide)
  · exact (claim_C1 (7 : Int) { items := [5], size := 1, cap := 2 }
      { items := { list := [5] }, cap := 2 }).2.2.2 (by decide)

/-- C2: on both FIFO blocking queues, a finite single-threaded sequence
of Enqueue calls starting from a fresh queue, followed by as many
Dequeue calls, returns exactly the enqueued values in enqueue order and
leaves the queue empty. -/
theorem claim_C2 {E : Type} [Inhabited E] :
    (∀ (cap : Int) (vs : List E) (q2 : BlockingQueue E),
        BlockingQueue.enqueueAll vs (NewBlockingQueue E cap) = some q2 →
        BlockingQueue.dequeueAll vs.length q2 = some (vs, NewBlockingQueue E cap)) ∧
    (∀ (cap : Int) (vs : List E) (q2 : LinkedBlockingQueue E),
        LinkedBlockingQueue.enqueueAll vs (NewLinkedBlockingQueue E cap) = some q2 →
        LinkedBlockingQueue.dequeueAll vs.length q2 = some (vs, NewLinkedBlockingQueue E cap)) := by
  constructor
  · intro cap vs q2 h
    have h2 := BlockingQueue.enqueueAll_spec vs _ q2 h
    have hit : q2.items = vs := by rw [h2]; simp [NewBlockingQueue]
    have hsz : q2.size = (vs.length : Int) := by rw [h2]; simp [NewBlockingQueue]
    have hcap : q2.cap = cap := by rw [h2]; rfl
    have hd := BlockingQueue.dequeueAll_spec vs q2 hit hsz
    rw [hd, hcap]
    rfl
  · intro cap vs q2 h
    have h2 := LinkedBlockingQueue.linked_enqueueAll_spec vs _ q2 h
    have hit : q2.items.list = vs := by rw [h2]; simp [NewLinkedBlockingQueue, NewLinkedList]
    have hcap : q2.cap = cap := by rw [h2]; rfl
    have hd := LinkedBlockingQueue.linked_dequeueAll_spec vs q2 hit
    rw [hd, hcap]
    rfl

/-- C2 witness: enqueuing 1,2,3 into fresh capacity-3 queues and then
dequeuing three times yields 1,2,3 and the empty queues. -/
theorem claim_C2_witness :
    BlockingQueue.dequeueAll 3 { items := [(1 : Int), 2, 3], size := 3, cap := 3 } =
      some ([1, 2, 3], NewBlockingQueue Int 3) ∧
    LinkedBlockingQueue.dequeueAll 3 { items := { list := [(1 : Int), 2, 3] }, cap := 3 } =
      some ([1, 2, 3], NewLinkedBlockingQueue Int 3) := by
  constructor
  · exact (claim_C2 (E := Int)).1 3 [1, 2, 3]
      { items := [1, 2, 3], size := 3, cap := 3 } (by decide)
  · exact (claim_C2 (E := Int)).2 3 [1, 2, 3]
      { items := { list := [1, 2, 3] }, cap := 3 } (by decide)

/-- The test comparator sorts by the numeric order. -/
theorem cmpInt_lt : ∀ a b : Int, cmpInt a b < 0 ↔ a < b := by
  intro a b
  by_cases h1 : a < b
  · simp [cmpInt, h1]
  · by_cases h2 : a = b <;> simp [cmpInt, h1, h2]

/-- The empty slice is a heap. -/
theorem isMinHeap_nil {E : Type} [Inhabited E] [LinearOrder E] :
    IsMinHeap ([] : List E) := by
  intro j hj0 hjlen
  simp at hjlen

/-- C3: enqueuing any finite sequence into a fresh priority queue whose
comparator agrees with a linear order and then dequeuing as many times
returns a permutation of the input in non-decreasing order (so the
concrete run 5,1,4,2,3 dequeues as 1,2,3,4,5). -/
theorem claim_C3 {E : Type} [Inhabited E] [LinearOrder E]
    (cmp : E → E → Int) (hcmp : ∀ a b : E, cmp a b < 0 ↔ a < b) (vs : List E) :
    List.Perm (PriorityQueue.dequeueList vs.length (NewPriorityQueue E cmp vs)) vs ∧
    List.Sorted (fun a b => a ≤ b)
      (PriorityQueue.dequeueList vs.length (NewPriorityQueue E cmp vs)) := by
  have hbase_wf : PriorityQueue.WF { size := 0, items := [], comparator := cmp } := by
    unfold PriorityQueue.WF
    rfl
  obtain ⟨hwf, hheap, hperm, hcm⟩ := PriorityQueue.foldl_enqueue_spec vs
    { size := 0, items := [], comparator := cmp } hcmp hbase_wf isMinHeap_nil
  have hperm2 : List.Perm (NewPriorityQueue E cmp vs).items vs := by
    simpa using hperm
  have hlen : (NewPriorityQueue E cmp vs).items.length = vs.length := hperm2.length_eq
  have hcmp2 : ∀ a b : E, (NewPriorityQueue E cmp vs).comparator a b < 0 ↔ a < b := by
    intro a b
    rw [show (NewPriorityQueue E cmp vs).comparator = cmp from hcm]
    exact hcmp a b
  obtain ⟨hp, hs⟩ := PriorityQueue.dequeueList_spec vs.length
    (NewPriorityQueue E cmp vs) hcmp2 hwf hheap hlen
  exact ⟨hp.trans hperm2, hs⟩

/-- C3 witness at the concrete run of the spec: enqueue 5,1,4,2,3 with
the ascending comparator, dequeue five times. -/
theorem claim_C3_witness :
    List.Perm (PriorityQueue.dequeueList 5 (NewPriorityQueue Int cmpInt [5, 1, 4, 2, 3]))
      [5, 1, 4, 2, 3] ∧
    List.Sorted (fun a b : Int => a ≤ b)
      (PriorityQueue.dequeueList 5 (NewPriorityQueue Int cmpInt [5, 1, 4, 2, 3])) :=
  claim_C3 cmpInt cmpInt_lt [5, 1, 4, 2, 3]

/-- C4 counterexample: enqueue 3,5,1 (heap slice [1,5,3]), then
RemoveWhere drops the 1 by linear scan-and-compact without
re-heapifying, leaving [5,3]; Peek then returns 5 although 3 is
present, so Peek does not return a minimal element after RemoveWhere. -/
theorem claim_C4_counterexample :
    ((NewPriorityQueue Int cmpInt [3, 5, 1]).RemoveWhere (fun x => x == 1)).Peek =
      ((5 : Int), true) ∧
    (3 : Int) ∈ ((NewPriorityQueue Int cmpInt [3, 5, 1]).RemoveWhere (fun x => x == 1)).items ∧
    ¬ ((5 : Int) ≤ 3) := by
  have st1 : siftUp cmpInt [3] 0 = [3] := by
    rw [siftUp]
    norm_num
  have st2 : siftUp cmpInt [3, 5] 1 = [3, 5] := by
    rw [siftUp]
    norm_num [getI, cmpInt]
  have st3 : siftUp cmpInt [1, 5, 3] 0 = [1, 5, 3] := by
    rw [siftUp]
    norm_num
  have st4 : siftUp cmpInt [3, 5, 1] 2 = [1, 5, 3] := by
    rw [siftUp]
    rw [dif_pos (by norm_num [getI, cmpInt])]
    have hsw : swapAt [(3 : Int), 5, 1] 2 0 = [1, 5, 3] := by
      norm_num [swapAt, getI]
    rw [hsw, st3]
  have hq : NewPriorityQueue Int cmpInt [3, 5, 1] =
      { size := 3, items := [1, 5, 3], comparator := cmpInt } := by
    unfold NewPriorityQueue
    simp only [List.foldl_cons, List.foldl_nil, PriorityQueue.Enqueue]
    norm_num
    rw [st1]
    norm_num
    rw [st2]
    norm_num
    rw [show Int.toNat 2 = 2 from rfl, st4]
  refine ⟨?_, ?_, by decide⟩ <;> rw [hq] <;> decide

/-- C4 (amended): Enqueue, Dequeue and Clear preserve the size/slice
consistency and the min-heap invariant, and in any consistent heap
state a non-empty queue's Peek and Dequeue return a minimal element
under the comparator among the elements currently present; but
Remove/RemoveWhere compact without re-heapifying and may break the
invariant, after which Peek need not be minimal (see the
counterexample). -/
theorem claim_C4 {E : Type} [Inhabited E] [LinearOrder E] (q : PriorityQueue E)
    (hcmp : ∀ a b : E, q.comparator a b < 0 ↔ a < b)
    (hwf : q.WF) (hheap : IsMinHeap q.items) :
    (∀ v, (q.Enqueue v).WF ∧ IsMinHeap (q.Enqueue v).items) ∧
    ((q.Dequeue).2.WF ∧ IsMinHeap (q.Dequeue).2.items) ∧
    (q.Clear.WF ∧ IsMinHeap q.Clear.items) ∧
    (q.size ≠ 0 →
      q.Peek = (getI q.items 0, true) ∧
      (q.Dequeue).1 = (getI q.items 0, true) ∧
      ∀ x ∈ q.items, getI q.items 0 ≤ x) := by
  refine ⟨?_, ?_, ?_, ?_⟩
  · intro v
    obtain ⟨h1, h2, _, _⟩ := q.enqueue_spec hcmp hwf hheap v
    exact ⟨h1, h2⟩
  · by_cases hz : q.size = 0
    · rw [q.dequeue_empty hz]
      exact ⟨hwf, hheap⟩
    · obtain ⟨_, h2, h3, _, _, _⟩ := q.dequeue_spec hcmp hwf hheap hz
      exact ⟨h2, h3⟩
  · constructor
    · unfold PriorityQueue.WF
      rfl
    · exact isMinHeap_nil
  · intro hz
    obtain ⟨h1, _, _, _, _, h6⟩ := q.dequeue_spec hcmp hwf hheap hz
    refine ⟨?_, h1, h6⟩
    unfold PriorityQueue.Peek
    rw [if_neg (by rw [beq_iff_eq]; exact hz)]

/-- C4 witness on the consistent two-element heap [1,2]: Peek returns
the minimum 1 and 1 bounds every present element. -/
theorem claim_C4_witness :
    PriorityQueue.Peek { size := 2, items := [(1 : Int), 2], comparator := cmpInt } =
      ((1 : Int), true) ∧
    ∀ x ∈ [(1 : Int), 2], (1 : Int) ≤ x := by
  have hheap : IsMinHeap [(1 : Int), 2] := by
    intro j hj0 hjlen
    simp at hjlen
    have hj1 : j = 1 := by omega
    subst hj1
    decide
  have h := (claim_C4 { size := 2, items := [(1 : Int), 2], comparator := cmpInt }
    cmpInt_lt (by unfold PriorityQueue.WF; decide) hheap).2.2.2 (by decide)
  exact ⟨h.1, h.2.2⟩

/-- C5: for the array blocking queue and the priority blocking queue,
TryDequeue returns the zero value with ok=false and leaves the queue
unchanged exactly when the queue is empty at the instant of the call;
otherwise it removes and returns the head (array variant) or the root
slot (priority variant, on a size-consistent state) with ok=true. -/
theorem claim_C5 {E : Type} [Inhabited E] (q : BlockingQueue E) (p : PriorityBlockingQueue E) :
    (((q.TryDequeue).1 = (default, false) ∧ (q.TryDequeue).2 = q) ↔ q.size = 0) ∧
    (q.size ≠ 0 → q.TryDequeue =
      ((q.items.headI, true), { items := q.items.tail, size := q.size - 1, cap := q.cap })) ∧
    (((p.TryDequeue).1 = ((default : E), false) ∧ (p.TryDequeue).2 = p) ↔ p.items.size = 0) ∧
    (p.items.size ≠ 0 → p.items.WF →
      (p.TryDequeue).1 = (getI p.items.items 0, true) ∧
      List.Perm (getI p.items.items 0 :: (p.TryDequeue).2.items.items) p.items.items ∧
      (p.TryDequeue).2.items.size = p.items.size - 1 ∧ (p.TryDequeue).2.cap = p.cap) := by
  have hbq_empty : q.size = 0 → q.TryDequeue = ((default, false), q) := by
    intro hz
    unfold BlockingQueue.TryDequeue
    rw [if_pos (by rw [beq_iff_eq]; exact hz)]
  have hbq_item : q.size ≠ 0 → q.TryDequeue =
      ((q.items.headI, true), { items := q.items.tail, size := q.size - 1, cap := q.cap }) := by
    intro hz
    unfold BlockingQueue.TryDequeue
    rw [if_neg (by rw [beq_iff_eq]; exact hz)]
  have hpq_empty : p.items.size = 0 → p.TryDequeue = ((default, false), p) := by
    intro hz
    unfold PriorityBlockingQueue.TryDequeue
    rw [if_pos (by rw [beq_iff_eq]; exact hz)]
  have hpq_step : p.items.size ≠ 0 → p.TryDequeue =
      ((p.items.Dequeue).1, { items := (p.items.Dequeue).2, cap := p.cap }) := by
    intro hz
    unfold PriorityBlockingQueue.TryDequeue
    rw [if_neg (by rw [beq_iff_eq]; exact hz)]
  have hpq_ok : p.items.size ≠ 0 → (p.items.Dequeue).1.2 = true := by
    intro hz
    unfold PriorityQueue.Dequeue
    rw [if_neg (by rw [beq_iff_eq]; exact hz)]
  refine ⟨⟨?_, ?_⟩, hbq_item, ⟨?_, ?_⟩, ?_⟩
  · rintro ⟨h1, h2⟩
    by_contra hz
    rw [hbq_item hz] at h1
    simp at h1
  · intro hz
    rw [hbq_empty hz]
    exact ⟨rfl, rfl⟩
  · rintro ⟨h1, h2⟩
    by_contra hz
    rw [hpq_step hz] at h1
    have hok := hpq_ok hz
    rw [show ((p.items.Dequeue).1, ({ items := (p.items.Dequeue).2, cap := p.cap } :
      PriorityBlockingQueue E)).1 = (p.items.Dequeue).1 from rfl] at h1
    rw [h1] at hok
    simp at hok
  · intro hz
    rw [hpq_empty hz]
    exact ⟨rfl, rfl⟩
  · intro hz hwf
    obtain ⟨h1, _, h3, h4⟩ := p.items.dequeue_basic hwf hz
    rw [hpq_step hz]
    exact ⟨h1, by rw [show ((p.items.Dequeue).1, ({ items := (p.items.Dequeue).2, cap := p.cap } :
      PriorityBlockingQueue E)).2.items = (p.items.Dequeue).2 from rfl]; exact h3, h4, rfl⟩

/-- C5 witness: a two-element array queue dequeues its head, a
two-element priority queue dequeues its root. -/
theorem claim_C5_witness :
    BlockingQueue.TryDequeue { items := [(4 : Int), 5], size := 2, cap := 9 } =
      (((4 : Int), true), { items := [5], size := 1, cap := 9 }) ∧
    (PriorityBlockingQueue.TryDequeue
        { items := { size := 2, items := [(1 : Int), 2], comparator := cmpInt }, cap := 9 }).1 =
      ((1 : Int), true) := by
  constructor
  · exact (claim_C5 { items := [(4 : Int), 5], size := 2, cap := 9 }
      { items := { size := 2, items := [(1 : Int), 2], comparator := cmpInt }, cap := 9 }).2.1
      (by decide)
  · exact ((claim_C5 { items := [(4 : Int), 5], size := 2, cap := 9 }
      { items := { size := 2, items := [(1 : Int), 2], comparator := cmpInt }, cap := 9 }).2.2.2
      (by decide) (by unfold PriorityQueue.WF; decide)).1

/-- C6 counterexample: Remove removes every deep-equal occurrence, not
only the first: on contents [1,2,1] with size 3, Remove(1) leaves [2]
rather than the [2,1] the claim predicts. -/
theorem claim_C6_counterexample :
    (BlockingQueue.Remove 1 { items := [(1 : Int), 2, 1], size := 3, cap := 5 }).items = [2] ∧
    (BlockingQueue.Remove 1 { items := [(1 : Int), 2, 1], size := 3, cap := 5 }).items ≠ [2, 1] := by
  decide

/-- C6 (amended): on the array blocking queue, the linked list and the
priority queue, Remove(v) removes every element deep-equal to v from
anywhere in the backend and RemoveWhere(pred) removes every element
satisfying the predicate; both are total state transformers that return
no report, survivors keep their relative order, and the stored sizes
are recomputed to the new lengths. -/
theorem claim_C6 {E : Type} [DecidableEq E] (v : E) (pred : E → Bool)
    (q : BlockingQueue E) (l : LinkedList E) (p : PriorityQueue E) :
    ((q.Remove v).items = q.items.filter (fun x => !(x == v)) ∧
      (q.Remove v).items.Sublist q.items ∧ v ∉ (q.Remove v).items ∧
      (q.RemoveWhere pred).items = q.items.filter (fun x => !pred x) ∧
      (q.RemoveWhere pred).items.Sublist q.items ∧
      (∀ x ∈ (q.RemoveWhere pred).items, pred x = false) ∧
      (q.Remove v).size = ((q.Remove v).items.length : Int) ∧
      (q.RemoveWhere pred).size = ((q.RemoveWhere pred).items.length : Int)) ∧
    ((l.Remove v).list = l.list.filter (fun x => !(x == v)) ∧
      (l.Remove v).list.Sublist l.list ∧ v ∉ (l.Remove v).list ∧
      (l.RemoveWhere pred).list = l.list.filter (fun x => !pred x)) ∧
    ((p.Remove v).items = p.items.filter (fun x => !(x == v)) ∧
      (p.Remove v).items.Sublist p.items ∧ v ∉ (p.Remove v).items ∧
      (p.RemoveWhere pred).items = p.items.filter (fun x => !pred x) ∧
      (p.Remove v).size = ((p.Remove v).items.length : Int) ∧
      (p.RemoveWhere pred).size = ((p.RemoveWhere pred).items.length : Int)) := by
  refine ⟨⟨rfl, List.filter_sublist _, ?_, rfl, List.filter_sublist _, ?_, rfl, rfl⟩,
    ⟨rfl, List.filter_sublist _, ?_, rfl⟩,
    ⟨rfl, List.filter_sublist _, ?_, rfl, rfl, rfl⟩⟩
  · intro hmem
    simp [BlockingQueue.Remove, List.mem_filter] at hmem
  · intro x hx
    simp only [BlockingQueue.RemoveWhere, List.mem_filter, Bool.not_eq_eq_eq_not,
      Bool.not_true] at hx
    exact hx.2
  · intro hmem
    simp [LinkedList.Remove, LinkedList.RemoveWhere, List.mem_filter] at hmem
  · intro hmem
    simp [PriorityQueue.Remove, PriorityQueue.RemoveWhere, List.mem_filter] at hmem

/-- C7: on a malformed payload the decode step fails with a non-nil
error and BlockingQueue propagates it untouched, but
PriorityQueue.UnmarshalJSON returns a nil error on the very same
malformed input (its source returns nil where the decode error is
non-nil), leaving the queue untouched: the priority variant contradicts
the claim at this input. -/
theorem claim_C7 :
    decodeJsonList decInt (Json.str "oops") =
      Except.error "json: cannot unmarshal value into slice" ∧
    PriorityQueue.UnmarshalJSON decInt (Json.str "oops")
      { size := 1, items := [(7 : Int)], comparator := cmpInt } =
      ((none : GoError), { size := 1, items := [(7 : Int)], comparator := cmpInt }) ∧
    (∀ q : BlockingQueue Int,
      BlockingQueue.UnmarshalJSON decInt (Json.str "oops") q =
        some (some "json: cannot unmarshal value into slice", q)) :=
  ⟨rfl, rfl, fun q => rfl⟩

/-- C8 counterexample: decoding [1,2] into an array blocking queue that
already holds [9] produces [9,1,2] — the decoded values are appended
after the previous contents instead of replacing them wholesale. -/
theorem claim_C8_counterexample :
    BlockingQueue.UnmarshalJSON decInt (Json.arr [Json.num 1, Json.num 2])
      { items := [(9 : Int)], size := 1, cap := 5 } =
      some ((none : GoError), { items := [9, 1, 2], size := 3, cap := 5 }) ∧
    ([9, 1, 2] : List Int) ≠ [1, 2] := by
  decide

/-- C8 (amended): with a payload that decodes to a value list, a
successful UnmarshalJSON replaces the contents wholesale on the plain
Queue (the storage becomes a brand-new list of exactly the decoded
sequence), on the PriorityQueue and on the PriorityBlockingQueue (both
clear first, so afterwards they hold exactly the decoded multiset),
always with a nil error; the BlockingQueue, the LinkedBlockingQueue and
the LinkedList instead append the decoded values after their previous
contents. -/
theorem claim_C8 {E : Type} [Inhabited E] (dec : Json → Option E) (data : Json)
    (values : List E) (hdec : decodeJsonList dec data = Except.ok values) :
    (∀ (q q2 : BlockingQueue E) (err : GoError),
        q.UnmarshalJSON dec data = some (err, q2) →
        err = none ∧ q2.items = q.items ++ values) ∧
    (∀ l : LinkedList E, (l.UnmarshalJSON dec data).1 = none ∧
        (l.UnmarshalJSON dec data).2.list = l.list ++ values) ∧
    (∀ p : PriorityQueue E, (p.UnmarshalJSON dec data).1 = none ∧
        List.Perm (p.UnmarshalJSON dec data).2.items values) ∧
    (∀ qq : Queue E, (qq.UnmarshalJSON dec data).1 = none ∧
        (qq.UnmarshalJSON dec data).2.ToArray = values) ∧
    (∀ (lb lb2 : LinkedBlockingQueue E) (err : GoError),
        lb.UnmarshalJSON dec data = some (err, lb2) →
        err = none ∧ lb2.items.list = lb.items.list ++ values) ∧
    (∀ (pb pb2 : PriorityBlockingQueue E) (err : GoError),
        pb.UnmarshalJSON dec data = some (err, pb2) →
        err = none ∧ List.Perm pb2.items.items values) := by
  refine ⟨?_, ?_, ?_, ?_, ?_, ?_⟩
  · intro q q2 err h
    unfold BlockingQueue.UnmarshalJSON at h
    rw [hdec] at h
    dsimp only at h
    cases hl : BlockingQueue.unmarshalLoop values q with
    | none => rw [hl] at h; simp at h
    | some q3 =>
      rw [hl] at h
      have h2 : ((none : GoError), q3) = (err, q2) := by simpa using h
      have h5 : (none : GoError) = err := congrArg Prod.fst h2
      have h6 : q3 = q2 := congrArg Prod.snd h2
      refine ⟨h5.symm, ?_⟩
      have h3 := BlockingQueue.unmarshalLoop_spec values q q3 hl
      rw [← h6, h3]
  · intro l
    unfold LinkedList.UnmarshalJSON
    rw [hdec]
    exact ⟨rfl, rfl⟩
  · intro p
    unfold PriorityQueue.UnmarshalJSON
    rw [hdec]
    refine ⟨rfl, ?_⟩
    have hwfc : p.Clear.WF := by
      unfold PriorityQueue.WF
      rfl
    obtain ⟨_, hperm, _⟩ := PriorityQueue.foldl_enqueue_perm values p.Clear hwfc
    simpa [PriorityQueue.Clear] using hperm
  · intro qq
    unfold Queue.UnmarshalJSON
    rw [hdec]
    exact ⟨rfl, rfl⟩
  · intro lb lb2 err h
    unfold LinkedBlockingQueue.UnmarshalJSON at h
    rw [hdec] at h
    dsimp only at h
    cases hl : LinkedBlockingQueue.unmarshalLoop values lb with
    | none => rw [hl] at h; simp at h
    | some lb3 =>
      rw [hl] at h
      have h2 : ((none : GoError), lb3) = (err, lb2) := by simpa using h
      have h5 : (none : GoError) = err := congrArg Prod.fst h2
      have h6 : lb3 = lb2 := congrArg Prod.snd h2
      obtain ⟨g1, _⟩ := LinkedBlockingQueue.linked_unmarshalLoop_spec values lb lb3 hl
      exact ⟨h5.symm, by rw [← h6]; exact g1⟩
  · intro pb pb2 err h
    unfold PriorityBlockingQueue.UnmarshalJSON at h
    rw [hdec] at h
    dsimp only at h
    cases hl : PriorityBlockingQueue.unmarshalLoop values
        { pb with items := pb.items.Clear } with
    | none => rw [hl] at h; simp at h
    | some pb3 =>
      rw [hl] at h
      have h2 : ((none : GoError), pb3) = (err, pb2) := by simpa using h
      have h5 : (none : GoError) = err := congrArg Prod.fst h2
      have h6 : pb3 = pb2 := congrArg Prod.snd h2
      have hwfc : ({ pb with items := pb.items.Clear } :
          PriorityBlockingQueue E).items.WF := by
        unfold PriorityQueue.WF
        rfl
      obtain ⟨_, g2, _⟩ := PriorityBlockingQueue.priority_unmarshalLoop_spec values
        { pb with items := pb.items.Clear } pb3 hwfc hl
      refine ⟨h5.symm, ?_⟩
      rw [← h6]
      simpa [PriorityQueue.Clear] using g2

/-- C8 witness: decoding [4,6] appends on the linked list holding [9],
wholesale-replaces on the priority queue holding [9], and
wholesale-replaces on the plain Queue holding [9]. -/
theorem claim_C8_witness :
    (LinkedList.UnmarshalJSON decInt (Json.arr [Json.num 4, Json.num 6])
      { list := [(9 : Int)] }).2.list = [9, 4, 6] ∧
    List.Perm (PriorityQueue.UnmarshalJSON decInt (Json.arr [Json.num 4, Json.num 6])
      { size := 1, items := [(9 : Int)], comparator := cmpInt }).2.items [4, 6] ∧
    (Queue.UnmarshalJSON decInt (Json.arr [Json.num 4, Json.num 6])
      (NewQueue Int [(9 : Int)])).2.ToArray = [4, 6] := by
  have h := claim_C8 decInt (Json.arr [Json.num 4, Json.num 6]) [4, 6] rfl
  exact ⟨(h.2.1 { list := [(9 : Int)] }).2,
    (h.2.2.1 { size := 1, items := [(9 : Int)], comparator := cmpInt }).2,
    (h.2.2.2.1 (NewQueue Int [(9 : Int)])).2⟩

/-- C9: when the element codec round-trips, encoding a queue with
ToJSON and decoding the result into a fresh queue of the same type and
capacity reproduces the same sequence on the array blocking queue (it
fits because the contents fit within the capacity) and the same
multiset on the priority queue. -/
theorem claim_C9 {E : Type} [Inhabited E] (dec : Json → Option E) (enc : E → Json)
    (hinv : ∀ e, dec (enc e) = some e) :
    (∀ q : BlockingQueue E, (q.items.length : Int) ≤ q.cap ∨ q.cap < 0 →
      BlockingQueue.UnmarshalJSON dec (q.ToJSON enc) (NewBlockingQueue E q.cap) =
        some ((none : GoError),
          { items := q.items, size := (q.items.length : Int), cap := q.cap })) ∧
    (∀ p : PriorityQueue E,
      ((NewPriorityQueue E p.comparator []).UnmarshalJSON dec (p.ToJSON enc)).1 = none ∧
      List.Perm ((NewPriorityQueue E p.comparator []).UnmarshalJSON dec (p.ToJSON enc)).2.items
        p.items) := by
  have hdec : ∀ xs : List E, decodeJsonList dec (encodeJsonList enc xs) = Except.ok xs :=
    decode_encode_ok dec enc hinv
  constructor
  · intro q hcap
    unfold BlockingQueue.UnmarshalJSON BlockingQueue.ToJSON BlockingQueue.ToArray
    rw [hdec]
    dsimp only
    have hloop := BlockingQueue.unmarshalLoop_success q.items (NewBlockingQueue E q.cap) (by
      rcases hcap with h | h
      · right
        simpa [NewBlockingQueue] using h
      · left
        simpa [NewBlockingQueue] using h)
    rw [hloop]
    simp [NewBlockingQueue]
  · intro p
    unfold PriorityQueue.UnmarshalJSON PriorityQueue.ToJSON PriorityQueue.ToArray
    rw [hdec]
    refine ⟨rfl, ?_⟩
    have hwfc : (NewPriorityQueue E p.comparator []).Clear.WF := by
      unfold PriorityQueue.WF
      rfl
    obtain ⟨_, hperm, _⟩ := PriorityQueue.foldl_enqueue_perm p.items _ hwfc
    simpa [PriorityQueue.Clear] using hperm

/-- C9 witness: a two-element array queue and a two-element priority
queue round-trip through the integer codec. -/
theorem claim_C9_witness :
    BlockingQueue.UnmarshalJSON decInt
        (BlockingQueue.ToJSON encInt { items := [(1 : Int), 2], size := 2, cap := 5 })
        (NewBlockingQueue Int 5) =
      some ((none : GoError), { items := [1, 2], size := 2, cap := 5 }) ∧
    List.Perm ((NewPriorityQueue Int cmpInt []).UnmarshalJSON decInt
        (PriorityQueue.ToJSON encInt
          { size := 2, items := [(3 : Int), 1], comparator := cmpInt })).2.items
      [3, 1] := by
  have h := claim_C9 decInt encInt (fun e => rfl)
  exact ⟨h.1 { items := [(1 : Int), 2], size := 2, cap := 5 } (Or.inl (by decide)),
    (h.2 { size := 2, items := [(3 : Int), 1], comparator := cmpInt }).2⟩

/-- C10: the stored size field always equals the number of elements in
the backing slice: the equality holds at construction and is preserved
by TryEnqueue, TryDequeue, Enqueue, Dequeue, Remove, RemoveWhere, Clear
and UnmarshalJSON on the array blocking queue and by the corresponding
priority queue operations, so Count and IsEmpty report the true element
count. -/
theorem claim_C10 {E : Type} [Inhabited E] [DecidableEq E] (v : E) (pred : E → Bool)
    (dec : Json → Option E) (data : Json) (cap : Int) (cmp : E → E → Int) :
    (NewBlockingQueue E cap).WF ∧
    (∀ q : BlockingQueue E, q.WF →
      (q.TryEnqueue v).2.WF ∧ (q.TryDequeue).2.WF ∧
      (∀ q2, q.Enqueue v = some q2 → q2.WF) ∧
      (∀ x q2, q.Dequeue = some (x, q2) → q2.WF) ∧
      (∀ r, q.UnmarshalJSON dec data = some r → r.2.WF) ∧
      q.Count = (q.items.length : Int) ∧ (q.IsEmpty = true ↔ q.items = [])) ∧
    (∀ q : BlockingQueue E, (q.Remove v).WF ∧ (q.RemoveWhere pred).WF ∧ q.Clear.WF) ∧
    (NewPriorityQueue E cmp []).WF ∧
    (∀ p : PriorityQueue E, p.WF →
      (p.Enqueue v).WF ∧ (p.Dequeue).2.WF ∧ (p.UnmarshalJSON dec data).2.WF ∧
      p.Count = (p.items.length : Int) ∧ (p.IsEmpty = true ↔ p.items = [])) ∧
    (∀ p : PriorityQueue E, (p.Remove v).WF ∧ (p.RemoveWhere pred).WF ∧ p.Clear.WF) := by
  refine ⟨?_, ?_, ?_, ?_, ?_, ?_⟩
  · unfold BlockingQueue.WF NewBlockingQueue
    rfl
  · intro q hwf
    have hwfx := hwf
    unfold BlockingQueue.WF at hwfx
    refine ⟨?_, ?_, ?_, ?_, ?_, hwfx, ?_⟩
    · unfold BlockingQueue.TryEnqueue
      split
      · exact hwf
      · show q.size + 1 = _
        simp only [List.length_append, List.length_cons, List.length_nil]
        push_cast
        omega
    · unfold BlockingQueue.TryDequeue
      split
      · exact hwf
      · rename_i hne
        rw [beq_iff_eq] at hne
        show q.size - 1 = _
        have hlen : q.items.length ≠ 0 := by
          intro h0
          exact hne (by rw [hwfx, h0]; rfl)
        simp only [List.length_tail]
        omega
    · intro q2 h
      unfold BlockingQueue.Enqueue at h
      split at h
      · simp at h
      · rw [Option.some.injEq] at h
        rw [← h]
        show q.size + 1 = _
        simp only [List.length_append, List.length_cons, List.length_nil]
        push_cast
        omega
    · intro x q2 h
      unfold BlockingQueue.Dequeue at h
      split at h
      · simp at h
      · rename_i hne
        rw [beq_iff_eq] at hne
        rw [Option.some.injEq] at h
        have h2 : ({ items := q.items.tail, size := q.size - 1, cap := q.cap } :
            BlockingQueue E) = q2 := congrArg Prod.snd h
        rw [← h2]
        show q.size - 1 = _
        have hlen : q.items.length ≠ 0 := by
          intro h0
          exact hne (by rw [hwfx, h0]; rfl)
        simp only [List.length_tail]
        omega
    · intro r h
      unfold BlockingQueue.UnmarshalJSON at h
      cases hd : decodeJsonList dec data with
      | error e =>
        rw [hd] at h
        rw [Option.some.injEq] at h
        rw [← h]
        exact hwf
      | ok values =>
        rw [hd] at h
        dsimp only at h
        cases hl : BlockingQueue.unmarshalLoop values q with
        | none => rw [hl] at h; simp at h
        | some q3 =>
          rw [hl] at h
          have h2 : ((none : GoError), q3) = r := by simpa using h
          have h3 := BlockingQueue.unmarshalLoop_spec values q q3 hl
          rw [← h2]
          show q3.size = _
          rw [h3]
          show q.size + _ = _
          simp only [List.length_append]
          push_cast
          omega
    · unfold BlockingQueue.IsEmpty BlockingQueue.Count
      rw [beq_iff_eq, hwfx]
      constructor
      · intro h
        have : q.items.length = 0 := by exact_mod_cast h
        exact List.length_eq_zero.mp this
      · intro h
        rw [h]
        rfl
  · intro q
    refine ⟨?_, ?_, ?_⟩
    · unfold BlockingQueue.WF
      rfl
    · unfold BlockingQueue.WF
      rfl
    · unfold BlockingQueue.WF BlockingQueue.Clear
      rfl
  · unfold PriorityQueue.WF NewPriorityQueue
    rfl
  · intro p hwf
    have hwfx := hwf
    unfold PriorityQueue.WF at hwfx
    refine ⟨(p.enqueue_basic hwf v).1, ?_, ?_, hwfx, ?_⟩
    · by_cases hz : p.size = 0
      · rw [p.dequeue_empty hz]
        exact hwf
      · exact (p.dequeue_basic hwf hz).2.1
    · unfold PriorityQueue.UnmarshalJSON
      cases hd : decodeJsonList dec data with
      | error e => exact hwf
      | ok values =>
        have hwfc : p.Clear.WF := by
          unfold PriorityQueue.WF
          rfl
        exact (PriorityQueue.foldl_enqueue_perm values p.Clear hwfc).1
    · unfold PriorityQueue.IsEmpty PriorityQueue.Count
      rw [beq_iff_eq, hwfx]
      constructor
      · intro h
        have : p.items.length = 0 := by exact_mod_cast h
        exact List.length_eq_zero.mp this
      · intro h
        rw [h]
        rfl
  · intro p
    refine ⟨rfl, rfl, ?_⟩
    unfold PriorityQueue.WF
    rfl

/-- C10 witness: the invariant survives a TryEnqueue on the array queue
and an Enqueue on the priority queue starting from consistent states. -/
theorem claim_C10_witness :
    (BlockingQueue.TryEnqueue (7 : Int) { items := [1], size := 1, cap := 3 }).2.WF ∧
    (PriorityQueue.Enqueue (7 : Int) { size := 1, items := [1], comparator := cmpInt }).WF := by
  have h := claim_C10 (7 : Int) (fun x => x == 1) decInt Json.null 3 cmpInt
  exact ⟨(h.2.1 _ (by unfold BlockingQueue.WF; decide)).1,
    (h.2.2.2.2.1 _ (by unfold PriorityQueue.WF; decide)).1⟩

end Collection
